import Mathlib

/-!
The command-line argument manager of `args.h`.

A shallow embedding of the class `ArgumentManager` of `src/args.h` and the
verification of its declaration, parsing and retrieval operations.

Modelling conventions.

* `std::string` is a list of characters (`Str`), `vector<T>` is a `List`.
* `unordered_map<string, size_t>` is an association list with unique treatment of
  keys: `find` returns the first binding of a key and `assign` (the map's
  `operator[]` followed by an assignment) overwrites that binding or adds one.
  The source never iterates over the map, so the order of the bindings is not
  observable.
* `size_t` values are natural numbers: every index and size of the source is
  bounded by the size of a vector that exists in memory, so no arithmetic of the
  source wraps around.
* An `Argument*` result is `Option Nat`: the position of the declaration in
  `mArgs`, or `none` for `nullptr`.
* An access outside a vector (`tokens[0]` on an empty token list, `mValues[index]`
  with `index` out of range) has no defined behaviour in C++; the operations that
  can reach one return `none` (`parse`) or `Retrieved.undefined` (retrieval).
* `isalpha` is the one of the "C" locale: the 52 ASCII letters.
* Memory is taken to suffice: no allocation of a size within `max_size()` fails
  (`std::bad_alloc` is not modelled). A request beyond `max_size()` throws
  `std::length_error`, which the count overloads of `add` can reach
  (`Outcome.length_error`).
* The retrieval templates `value<T>`, `values<T>` and `get_value<T>` are embedded at
  `T = string`, the instantiation that is well formed; `get_value_instantiable` models
  which instantiations are.
-/

/-- A `std::string`. -/
abbrev Str := List Char

/-- The type `ArgumentManager::Value`: `vector<string>`. -/
abbrev Value := List Str

/-- The class `ArgumentManager::Argument` (lines 45-101). -/
structure ArgumentManager.Argument where
  mName : Str
  mAltName : Str
  mOptional : Bool
  mHelp : Str
deriving DecidableEq

/-- The attributes of the class `ArgumentManager` (lines 357-366). -/
structure ArgumentManager where
  mBinName : Str
  mProgramName : Str
  mDescription : Str
  mIndices : List (Str × Nat)
  mArgs : List ArgumentManager.Argument
  mValues : List Value
  mErrorMessages : List Str
deriving DecidableEq

/-- The outcome of a retrieval: a value, an access outside a vector (no defined
behaviour), or the exception `std::out_of_range` of `vector::at`. -/
inductive Retrieved (α : Type) where
  | ok (v : α)
  | undefined
  | out_of_range
deriving DecidableEq

/-- The outcome of a call of a count overload of `add`: the call returns, or
`reserve` throws `std::length_error`, or the loop counter of type `int` overflows,
which has no defined behaviour. -/
inductive Outcome (α : Type) where
  | returned (r : α)
  | length_error
  | undefined
deriving DecidableEq

namespace ArgumentManager

/-! ## The name index -/

/-- The lookup `mIndices.find(name)`: `none` stands for `mIndices.end()`. -/
def find : List (Str × Nat) → Str → Option Nat
  | [], _ => none
  | (k, v) :: rest, name => if k = name then some v else find rest name

/-- The assignment `mIndices[name] = id`. -/
def assign : List (Str × Nat) → Str → Nat → List (Str × Nat)
  | [], name, id => [(name, id)]
  | (k, v) :: rest, name, id =>
    if k = name then (k, id) :: rest else (k, v) :: assign rest name id

/-! ## Helper functions of the class -/

/-- The function `isalpha` of `<cctype>` in the "C" locale. -/
def isalpha (c : Char) : Bool := c.isAlpha

/-- The member `is_valid_name` (lines 325-333). -/
def is_valid_name (name : Str) : Bool :=
  if name.length ≤ 1 || name.getD 0 ' ' != '-' then
    false
  else if name.length ≤ 2 then
    isalpha (name.getD 1 ' ')
  else
    isalpha (name.getD (if name.getD 1 ' ' = '-' then 2 else 1) ' ')

/-- The call `mErrorMessages.push_back(msg)`. -/
def push_error (m : ArgumentManager) (msg : Str) : ArgumentManager :=
  { m with mErrorMessages := m.mErrorMessages ++ [msg] }

/-! ## Declaring options (lines 201-271) -/

/-- The largest value of `int` (32 bits). -/
def INT_MAX : Nat := 2147483647

/-- The value `vector<string>::max_size()`, which is implementation-defined: here
that of libstdc++ on LP64, `PTRDIFF_MAX / sizeof(string)`. -/
def max_size : Nat := 288230376151711743

/-- The default value that the loop of the two count forms of `add` builds when it
completes: `n` copies of the placeholder, where `n` is `num`, or 1 when `num` is 0
(lines 203-207). -/
def placeholders (num : Nat) : Value :=
  List.replicate (if num = 0 then 1 else num) "0".toList

/-- The overload `add(name, defaultValue, optional, help)` (lines 212-234). -/
def add (m : ArgumentManager) (name : Str) (defaultValue : Value)
    (optional : Bool) (help : Str) : Option Nat × ArgumentManager :=
  if !is_valid_name name then
    (none, push_error m (name ++
      " is not a valid option name, options must start with - or -- followed by a letter".toList))
  else
    match find m.mIndices name with
    | none =>
      let id := m.mArgs.length
      (some id,
        { m with
          mIndices := assign m.mIndices name id
          mArgs := m.mArgs ++ [Argument.mk name [] optional help]
          mValues := m.mValues ++ [defaultValue] })
    | some _ => (none, push_error m (name ++ " option already exists.".toList))

/-- The overload `add(name, num, optional, help)` (lines 201-210). The default value
is built before `name` is looked at: `reserve(n)` (line 205) throws beyond
`max_size()`, and the loop of line 206 counts with an `int` against the `size_t` `n`,
so for `n` above `INT_MAX` the increment of `i = INT_MAX` overflows. -/
def add_num (m : ArgumentManager) (name : Str) (num : Nat)
    (optional : Bool) (help : Str) : Outcome (Option Nat × ArgumentManager) :=
  let n := if num = 0 then 1 else num
  if max_size < n then
    .length_error
  else if INT_MAX < n then
    .undefined
  else
    .returned (add m name (placeholders num) optional help)

/-- The overload `add(name, altname, defaultValue, optional, help)` (lines 247-271). -/
def add_alt (m : ArgumentManager) (name altname : Str) (defaultValue : Value)
    (optional : Bool) (help : Str) : Option Nat × ArgumentManager :=
  if !is_valid_name name || !is_valid_name altname then
    (none, push_error m (name ++
      " is not a valid option name, options must start with - or -- followed by a letter.".toList))
  else
    match find m.mIndices name, find m.mIndices altname with
    | none, none =>
      let id := m.mArgs.length
      (some id,
        { m with
          mIndices := assign (assign m.mIndices name id) altname id
          mArgs := m.mArgs ++ [Argument.mk name altname optional help]
          mValues := m.mValues ++ [defaultValue] })
    | _, _ =>
      (none, push_error m (name ++ " & ".toList ++ altname ++ " option already exists.".toList))

/-- The overload `add(name, altname, num, optional, help)` (lines 236-245), which
builds the default value as `add_num` does (lines 238-242) before the names are
looked at. -/
def add_alt_num (m : ArgumentManager) (name altname : Str) (num : Nat)
    (optional : Bool) (help : Str) : Outcome (Option Nat × ArgumentManager) :=
  let n := if num = 0 then 1 else num
  if max_size < n then
    .length_error
  else if INT_MAX < n then
    .undefined
  else
    .returned (add_alt m name altname (placeholders num) optional help)

/-- The state of the members before the body of the constructor runs. -/
def blank (programName description : Str) : ArgumentManager :=
  { mBinName := [], mProgramName := programName, mDescription := description,
    mIndices := [], mArgs := [], mValues := [], mErrorMessages := [] }

/-- The constructor `ArgumentManager(programName, description)` (lines 104-108). Its
call of `add` has the count 0, taken as 1, and returns (`construct_eq`); an exception
would leave the constructor without an object, which the last two cases stand for. -/
def construct (programName description : Str) : ArgumentManager :=
  match add_alt_num (blank programName description) "-h".toList "--help".toList 0 true
    "output the program's usage".toList with
  | .returned r => r.2
  | .length_error => blank programName description
  | .undefined => blank programName description

/-! ## Parsing (lines 115-154) -/

/-- The call `s.find_last_of(chars)`: the last position of `s` that holds one of
`chars`, `none` for `npos`. -/
def find_last_of (s chars : Str) : Option Nat :=
  (List.range s.length).reverse.find? (fun p => chars.contains (s.getD p ' '))

/-- The binary name of lines 120-121: `tokens[0].substr(pos + 1)`, where `npos + 1`
wraps around to 0. -/
def bin_name (token0 : Str) : Str :=
  match find_last_of token0 ['/', Char.ofNat 92] with
  | none => token0.drop 0
  | some pos => token0.drop (pos + 1)

/-- One iteration `j` of the inner loop (lines 143-147) for the option name at
cursor `i`, bound to slot `index`. -/
def parse_value (tokens : List Str) (i index : Nat) (m : ArgumentManager) (j : Nat) :
    ArgumentManager :=
  let current := i + j + 1
  if decide (tokens.length ≤ current) || is_valid_name (tokens.getD current []) then
    push_error m (tokens.getD i [] ++ " has less values than expected".toList)
  else
    { m with mValues := List.modify (fun slot => slot.set j (tokens.getD current [])) index m.mValues }

/-- The inner loop (lines 141-148) over the `size` positions of slot `index`; the
assignments of the loop keep the size of the slot, so `size` is read once. -/
def parse_values (tokens : List Str) (i index size : Nat) (m : ArgumentManager) :
    ArgumentManager :=
  (List.range size).foldl (parse_value tokens i index) m

/-- One iteration of the outer loop (lines 125-150) at cursor `i < tokens.size()`:
the next cursor and the next state, or `none` when `mValues[index]` is an access
outside the vector. -/
def parse_step (tokens : List Str) (i : Nat) (m : ArgumentManager) :
    Option (Nat × ArgumentManager) :=
  if !is_valid_name (tokens.getD i []) then
    some (i + 1, push_error m (tokens.getD i [] ++ " is not a valid option".toList))
  else
    match find m.mIndices (tokens.getD i []) with
    | none => some (i + 1, push_error m (tokens.getD i [] ++ " is not a known option".toList))
    | some index =>
      match m.mValues[index]? with
      | none => none
      | some slot => some (i + (slot.length + 1), parse_values tokens i index slot.length m)

/-- The outer loop (lines 123-151) from cursor `i`, with a bound on the number of
loop tests; `none` when the bound is reached or a step has no defined behaviour. -/
def parse_loop : Nat → List Str → Nat → ArgumentManager → Option ArgumentManager
  | 0, _, _, _ => none
  | fuel + 1, tokens, i, m =>
    if i < tokens.length then
      match parse_step tokens i m with
      | none => none
      | some (i', m') => parse_loop fuel tokens i' m'
    else
      some m

/-- The member `parse` (lines 115-154) on the token list `argv[0..argc)`: the count
returned and the state left. Every iteration moves the cursor forward, so
`tokens.size()` loop tests always suffice (`parse_loop_total`). -/
def parse (m : ArgumentManager) (tokens : List Str) : Option (Nat × ArgumentManager) :=
  match tokens with
  | [] => none
  | token0 :: _ =>
    match parse_loop tokens.length tokens 1 { m with mBinName := bin_name token0 } with
    | none => none
    | some m' => some (m'.mErrorMessages.length, m')

/-- The cursors at which the outer loop examines a token as an option name. -/
def cursors : Nat → List Str → Nat → ArgumentManager → List Nat
  | 0, _, _, _ => []
  | fuel + 1, tokens, i, m =>
    if i < tokens.length then
      match parse_step tokens i m with
      | none => [i]
      | some (i', m') => i :: cursors fuel tokens i' m'
    else
      []

/-! ## Typed retrieval (lines 276-352) -/

/-- The instance `get_value<string>` (lines 338-339); `at` throws outside the slot. -/
def get_value_text (m : ArgumentManager) (argIndex valueIndex : Nat) : Retrieved Str :=
  match m.mValues[argIndex]? with
  | none => .undefined
  | some slot =>
    match slot[valueIndex]? with
    | none => .out_of_range
    | some s => .ok s

/-- The instance `value<string>(name, id)` (lines 276-290): `string out;` is the
empty string. -/
def value_text (m : ArgumentManager) (name : Str) (id : Nat) : Retrieved Str :=
  match find m.mIndices name with
  | none => .ok []
  | some index =>
    match m.mValues[index]? with
    | none => .undefined
    | some slot =>
      if decide (id < slot.length) && decide (slot.length ≠ 0) then
        get_value_text m index id
      else
        .ok []

/-- The loop of `values` (lines 312-317) over the remaining positions `is`, for an
element conversion `get`. -/
def collect {α : Type} (get : Nat → Retrieved α) : List Nat → Retrieved (List α)
  | [] => .ok []
  | i :: rest =>
    match get i with
    | .ok v =>
      (match collect get rest with
      | .ok vs => .ok (v :: vs)
      | .undefined => .undefined
      | .out_of_range => .out_of_range)
    | .undefined => .undefined
    | .out_of_range => .out_of_range

/-- The instance `values<string>(name)` (lines 292-319). -/
def values_text (m : ArgumentManager) (name : Str) : Retrieved (List Str) :=
  match find m.mIndices name with
  | none => .ok []
  | some index =>
    match m.mValues[index]? with
    | none => .undefined
    | some slot => collect (get_value_text m index) (List.range slot.length)

/-- The types `T` that `get_value<T>` names in its tests (lines 338-350). -/
inductive ValueType where
  | string
  | int
  | float
  | double
  | long
  | long_long
  | long_double
deriving DecidableEq

/-- The type of the right-hand side of the assignment `out = ...` of each branch of
`get_value`, in the order of the source: `at(valueIndex)` is a string (line 339),
then `stoi`, `stof`, `stod`, `stol`, `stoll`, `stold` (lines 341-351). -/
def get_value_assigned : List ValueType :=
  [.string, .int, .float, .double, .long, .long_long, .long_double]

/-- Whether the assignment `out = e` is well formed for `out` of type `T` and `e` of
type `S`: a string takes a string, and an arithmetic value through
`string::operator=(char)`; an arithmetic type takes an arithmetic value by implicit
conversion and has no conversion from a string. -/
def assignable (T S : ValueType) : Bool :=
  match T, S with
  | .string, _ => true
  | _, .string => false
  | _, _ => true

/-- Whether `get_value<T>`, and with it `value<T>` and `values<T>`, can be
instantiated: the tests on `typeid` are run-time tests (`if`, not `if constexpr`), so
every assignment of the body is compiled for every `T`. -/
def get_value_instantiable (T : ValueType) : Bool :=
  get_value_assigned.all (assignable T)

/-! ## Program information (lines 159-187) -/

/-- The member `Argument::to_string` (lines 80-92). -/
def Argument.to_string (arg : Argument) : Str :=
  let s0 : Str := "* ".toList
  let s1 := s0 ++ arg.mName
  let s2 := if arg.mAltName.length > 0 then s1 ++ (", ".toList ++ arg.mAltName) else s1
  let s3 :=
    if arg.mHelp.length > 0 then
      s2 ++ (if arg.mAltName.length = 0 then "\t\t".toList else "\t".toList)
    else s2
  let s4 := s3 ++ arg.mHelp
  s4 ++ "\n".toList

/-- One of the two loops of `usage` over `mArgs` (lines 178-180 and 182-184): the
entry of every declaration that `keep` selects is appended to `usage`. -/
def usage_entries (keep : Argument → Bool) (args : List Argument) (usage : Str) : Str :=
  args.foldl (fun u arg => if keep arg then u ++ (" ".toList ++ arg.to_string) else u) usage

/-- The header written by `usage` (lines 164-173). -/
def usage_header (m : ArgumentManager) : Str :=
  if m.mProgramName.length ≠ 0 then
    let u1 := m.mProgramName ++ "\n".toList
    let u2 := u1 ++ List.replicate m.mProgramName.length '='
    let u3 := u2 ++ "\n".toList
    let u4 := if m.mDescription.length > 0 then u3 ++ (m.mDescription ++ "\n".toList) else u3
    u4 ++ "\n".toList
  else
    []

/-- The member `usage` (lines 159-187). -/
def usage (m : ArgumentManager) : Str :=
  let u0 := usage_header m
  let u1 := u0 ++ ("usage : ".toList ++ m.mBinName ++ " [Options]\n".toList)
  let u2 := u1 ++ "Required options:\n".toList
  let u3 := usage_entries (fun arg => !arg.mOptional) m.mArgs u2
  let u4 := u3 ++ "Optional options:\n".toList
  usage_entries (fun arg => arg.mOptional) m.mArgs u4

/-! ## Well-formed states and sequences of calls -/

/-- The registry is well formed: as many slots as declarations, and every binding
of the name index holds a valid option name and the position of a slot. -/
def WF (m : ArgumentManager) : Prop :=
  m.mArgs.length = m.mValues.length ∧
    ∀ p ∈ m.mIndices, p.2 < m.mValues.length ∧ is_valid_name p.1 = true

instance (m : ArgumentManager) : Decidable (WF m) := by
  unfold WF; infer_instance

/-- A call of one of the four `add` overloads or of `parse`. -/
inductive Call where
  | add (name : Str) (defaultValue : Value) (optional : Bool) (help : Str)
  | add_num (name : Str) (num : Nat) (optional : Bool) (help : Str)
  | add_alt (name altname : Str) (defaultValue : Value) (optional : Bool) (help : Str)
  | add_alt_num (name altname : Str) (num : Nat) (optional : Bool) (help : Str)
  | parse (tokens : List Str)
deriving DecidableEq

/-- The state after one call, `none` when the call does not return: it throws, or has
no defined behaviour. -/
def call (m : ArgumentManager) : Call → Option ArgumentManager
  | .add name dv optional help => some (add m name dv optional help).2
  | .add_num name num optional help =>
    match add_num m name num optional help with
    | .returned r => some r.2
    | _ => none
  | .add_alt name altname dv optional help => some (add_alt m name altname dv optional help).2
  | .add_alt_num name altname num optional help =>
    match add_alt_num m name altname num optional help with
    | .returned r => some r.2
    | _ => none
  | .parse tokens => (parse m tokens).map Prod.snd

/-- The call is one of the four `add` overloads. -/
def Call.is_add : Call → Bool
  | .parse _ => false
  | _ => true

/-- The state after a sequence of calls. -/
def calls (m : ArgumentManager) : List Call → Option ArgumentManager
  | [] => some m
  | c :: rest =>
    match call m c with
    | none => none
    | some m' => calls m' rest

/-! ## Definitions that follow the specification -/

/-- The character is a letter. -/
def is_letter (c : Char) : Bool :=
  (decide ('a' ≤ c) && decide (c ≤ 'z')) || (decide ('A' ≤ c) && decide (c ≤ 'Z'))

/-- The reference predicate for option names, by the form of the string: shorter
than 2 characters, exactly 2 characters, 3 characters or more. -/
def valid_name_reference : Str → Bool
  | [] => false
  | [_] => false
  | [c0, c1] => if c0 ≠ '-' then false else is_letter c1
  | c0 :: c1 :: c2 :: _ =>
    if c0 ≠ '-' then false else if c1 = '-' then is_letter c2 else is_letter c1

/-- The value of a run of decimal digits. -/
def digits_value (ds : Str) : Nat :=
  ds.foldl (fun acc c => 10 * acc + (c.toNat - '0'.toNat)) 0

/-- The count `num` of a count overload of `add` lets the call return: `n`, which is
`num` or 1 when `num` is 0, is at most `INT_MAX`. -/
def count_fits (num : Nat) : Bool := decide ((if num = 0 then 1 else num) ≤ INT_MAX)

/-- The call returns on a well-formed registry: a count overload has a count that
fits, and `parse` receives at least one token. -/
def Call.returns : Call → Bool
  | .add_num _ num _ _ => count_fits num
  | .add_alt_num _ _ num _ _ => count_fits num
  | .parse tokens => !tokens.isEmpty
  | _ => true

/-- The decimal text of a natural number. -/
def decimal_text (n : Nat) : Str := Nat.toDigits 10 n

/-- The cursors examined by `parse m tokens` as option names. -/
def parse_cursors (m : ArgumentManager) (tokens : List Str) : List Nat :=
  match tokens with
  | [] => []
  | token0 :: _ => cursors tokens.length tokens 1 { m with mBinName := bin_name token0 }

/-- The entry line of a declaration in the output of `usage`. -/
def usage_line (arg : Argument) : Str := " ".toList ++ arg.to_string

/-- The value position `j` of the option name at cursor `i` holds no value: it lies
past the end of the tokens, or its token is name-shaped. -/
def missing_value (tokens : List Str) (i j : Nat) : Bool :=
  decide (tokens.length ≤ i + j + 1) || is_valid_name (tokens.getD (i + j + 1) [])

/-- The diagnostic of an option name for which a value is missing. -/
def less_values (name : Str) : Str := name ++ " has less values than expected".toList

/-- The diagnostic of a token skipped in option-name position: it is not
name-shaped, or it is name-shaped and not registered. -/
def skipped (token : Str) : Str :=
  if is_valid_name token then token ++ " is not a known option".toList
  else token ++ " is not a valid option".toList

/-- The registry `m` with the diagnostic sequence `errors`. -/
def with_errors (m : ArgumentManager) (errors : List Str) : ArgumentManager :=
  { m with mErrorMessages := errors }

/-- The call does not declare an option with an empty sequence of default values. -/
def Call.has_default : Call → Bool
  | .add _ defaultValue _ _ => !defaultValue.isEmpty
  | .add_alt _ _ defaultValue _ _ => !defaultValue.isEmpty
  | _ => true

/-- The result `r` of a call of `add` on `m` is a rejection: the handle is null, one
diagnostic is appended, and the name index, the declarations and the slots are
those of `m`. -/
def Rejected (m : ArgumentManager) (r : Option Nat × ArgumentManager) : Prop :=
  r.1 = none ∧ (∃ msg, r.2.mErrorMessages = m.mErrorMessages ++ [msg]) ∧
    r.2.mIndices = m.mIndices ∧ r.2.mArgs = m.mArgs ∧ r.2.mValues = m.mValues

/-- The single-name option `name` is never matched by `parse m tokens`: no token
that the loop examines as an option name is `name`. -/
def Unmatched (m : ArgumentManager) (tokens : List Str) (name : Str) : Prop :=
  ∀ c ∈ parse_cursors m tokens, tokens.getD c [] ≠ name

/-- What `parse` may change: the binary name, the contents (not the sizes, nor the
number) of the slots, and the diagnostics, which only grow. -/
structure Stable (m m' : ArgumentManager) : Prop where
  programName : m'.mProgramName = m.mProgramName
  description : m'.mDescription = m.mDescription
  indices : m'.mIndices = m.mIndices
  args : m'.mArgs = m.mArgs
  sizes : m'.mValues.map List.length = m.mValues.map List.length
  errors : m.mErrorMessages <+: m'.mErrorMessages

end ArgumentManager

namespace ArgumentManager

/-! ## The name index: lemmas -/

theorem find_assign (l : List (Str × Nat)) (k : Str) (v : Nat) (k' : Str) :
    find (assign l k v) k' = if k' = k then some v else find l k' := by
  induction l with
  | nil =>
    by_cases h : k' = k
    · simp [assign, find, h]
    · simp [assign, find, h, Ne.symm h]
  | cons p rest ih =>
    obtain ⟨a, b⟩ := p
    by_cases ha : a = k
    · by_cases hk : k' = k
      · simp [assign, find, ha, hk]
      · simp [assign, find, ha, hk, Ne.symm hk]
    · by_cases hk : k' = k
      · subst hk
        simp [assign, find, ha, ih]
      · by_cases hak : a = k'
        · simp [assign, find, ha, hk, hak]
        · simp [assign, find, ha, hk, hak, ih]

theorem find_some_mem {l : List (Str × Nat)} {k : Str} {v : Nat} (h : find l k = some v) :
    (k, v) ∈ l := by
  induction l with
  | nil => simp [find] at h
  | cons p rest ih =>
    obtain ⟨a, b⟩ := p
    by_cases ha : a = k
    · simp [find, ha] at h
      simp [ha, h]
    · simp [find, ha] at h
      exact List.mem_cons_of_mem _ (ih h)

theorem mem_assign {l : List (Str × Nat)} {k : Str} {v : Nat} {p : Str × Nat}
    (h : p ∈ assign l k v) : p ∈ l ∨ p = (k, v) := by
  induction l with
  | nil => simp [assign] at h; exact Or.inr h
  | cons q rest ih =>
    obtain ⟨a, b⟩ := q
    by_cases ha : a = k
    · simp [assign, ha] at h
      rcases h with h | h
      · exact Or.inr h
      · exact Or.inl (List.mem_cons_of_mem _ h)
    · simp [assign, ha] at h
      rcases h with h | h
      · exact Or.inl (by simp [h])
      · rcases ih h with h' | h'
        · exact Or.inl (List.mem_cons_of_mem _ h')
        · exact Or.inr h'

/-! ## The name predicate: lemmas -/

theorem isalpha_eq_is_letter (c : Char) : isalpha c = is_letter c := by
  simp only [isalpha, is_letter, Char.isAlpha, Char.isUpper, Char.isLower]
  rw [Bool.or_comm]
  have e1 : (97 : UInt32) = 'a'.val := rfl
  have e2 : (122 : UInt32) = 'z'.val := rfl
  have e3 : (65 : UInt32) = 'A'.val := rfl
  have e4 : (90 : UInt32) = 'Z'.val := rfl
  simp only [e1, e2, e3, e4, Char.le_def, ge_iff_le]

end ArgumentManager

namespace ArgumentManager

/-! ## Retrieval: lemmas -/

theorem collect_suffix (m : ArgumentManager) (index : Nat) (slot : Value)
    (h : m.mValues[index]? = some slot) :
    ∀ (suf pre : Value), slot = pre ++ suf →
      collect (get_value_text m index) (List.range' pre.length suf.length) = .ok suf := by
  intro suf
  induction suf with
  | nil => intro pre _; simp [List.range', collect]
  | cons x rest ih =>
    intro pre hs
    have hrest := ih (pre ++ [x]) (by simp [hs])
    have hx : slot[pre.length]? = some x := by
      rw [hs, List.getElem?_append_right (Nat.le_refl _)]
      simp
    simp only [List.length_append, List.length_singleton] at hrest
    simp [List.range', collect, get_value_text, h, hx, hrest]

theorem collect_slot (m : ArgumentManager) (index : Nat) (slot : Value)
    (h : m.mValues[index]? = some slot) :
    collect (get_value_text m index) (List.range slot.length) = .ok slot := by
  have := collect_suffix m index slot h slot [] (by simp)
  simpa [List.range_eq_range'] using this

theorem values_text_eq {m : ArgumentManager} {name : Str} {index : Nat} {slot : Value}
    (hf : find m.mIndices name = some index) (hs : m.mValues[index]? = some slot) :
    values_text m name = .ok slot := by
  simp [values_text, hf, hs, collect_slot m index slot hs]

theorem value_text_eq {m : ArgumentManager} {name : Str} {index : Nat} {slot : Value}
    (hf : find m.mIndices name = some index) (hs : m.mValues[index]? = some slot) (id : Nat) :
    value_text m name id = .ok (slot.getD id []) := by
  simp only [value_text, hf, hs, get_value_text]
  by_cases hid : id < slot.length
  · have hc : (decide (id < slot.length) && decide (slot.length ≠ 0)) = true := by
      have : slot.length ≠ 0 := by omega
      simp [hid, this]
    have hget : slot[id]? = some (slot.getD id []) := by
      rw [List.getD_eq_getElem?_getD, List.getElem?_eq_getElem hid]
      rfl
    rw [if_pos hc, hget]
  · have hc : ¬ (decide (id < slot.length) && decide (slot.length ≠ 0)) = true := by
      simp [hid]
    have hd : slot.getD id [] = [] := by
      rw [List.getD_eq_getElem?_getD, List.getElem?_eq_none (Nat.le_of_not_lt hid)]
      rfl
    rw [if_neg hc, hd]

/-! ## Declaring options: lemmas -/

theorem add_cases (m : ArgumentManager) (name : Str) (dv : Value) (o : Bool) (h : Str) :
    (is_valid_name name = true ∧ find m.mIndices name = none ∧
      add m name dv o h = (some m.mArgs.length,
        { m with
          mIndices := assign m.mIndices name m.mArgs.length
          mArgs := m.mArgs ++ [Argument.mk name [] o h]
          mValues := m.mValues ++ [dv] })) ∨
    ((is_valid_name name = false ∨ find m.mIndices name ≠ none) ∧
      ∃ msg, add m name dv o h = (none, push_error m msg)) := by
  by_cases hv : is_valid_name name = true
  · cases hf : find m.mIndices name with
    | none => left; simp [add, hv, hf]
    | some i =>
      right
      exact ⟨Or.inr (by simp), (name ++ " option already exists.".toList), by simp [add, hv, hf]⟩
  · right
    have hv' : is_valid_name name = false := by simpa using hv
    exact ⟨Or.inl hv', (name ++
        " is not a valid option name, options must start with - or -- followed by a letter".toList), by simp [add, hv']⟩

theorem add_alt_cases (m : ArgumentManager) (name altname : Str) (dv : Value) (o : Bool)
    (h : Str) :
    (is_valid_name name = true ∧ is_valid_name altname = true ∧
      find m.mIndices name = none ∧ find m.mIndices altname = none ∧
      add_alt m name altname dv o h = (some m.mArgs.length,
        { m with
          mIndices := assign (assign m.mIndices name m.mArgs.length) altname m.mArgs.length
          mArgs := m.mArgs ++ [Argument.mk name altname o h]
          mValues := m.mValues ++ [dv] })) ∨
    ((is_valid_name name = false ∨ is_valid_name altname = false ∨
        find m.mIndices name ≠ none ∨ find m.mIndices altname ≠ none) ∧
      ∃ msg, add_alt m name altname dv o h = (none, push_error m msg)) := by
  by_cases hv : is_valid_name name = true
  · by_cases hv2 : is_valid_name altname = true
    · cases hf : find m.mIndices name with
      | none =>
        cases hf2 : find m.mIndices altname with
        | none => left; simp [add_alt, hv, hv2, hf, hf2]
        | some i =>
          right
          exact ⟨Or.inr (Or.inr (Or.inr (by simp))), (name ++ " & ".toList ++ altname ++ " option already exists.".toList),
            by simp [add_alt, hv, hv2, hf, hf2]⟩
      | some i =>
        right
        exact ⟨Or.inr (Or.inr (Or.inl (by simp))), (name ++ " & ".toList ++ altname ++ " option already exists.".toList),
          by simp [add_alt, hv, hv2, hf]⟩
    · right
      have hv' : is_valid_name altname = false := by simpa using hv2
      exact ⟨Or.inr (Or.inl hv'), (name ++
        " is not a valid option name, options must start with - or -- followed by a letter.".toList), by simp [add_alt, hv']⟩
  · right
    have hv' : is_valid_name name = false := by simpa using hv
    exact ⟨Or.inl hv', (name ++
        " is not a valid option name, options must start with - or -- followed by a letter.".toList), by simp [add_alt, hv']⟩

theorem rejected_push_error (m : ArgumentManager) (msg : Str) :
    Rejected m (none, push_error m msg) :=
  ⟨rfl, ⟨msg, rfl⟩, rfl, rfl, rfl⟩

theorem wf_push_error {m : ArgumentManager} (hwf : WF m) (msg : Str) :
    WF (push_error m msg) := hwf

theorem wf_append {m : ArgumentManager} (hwf : WF m) (idx : List (Str × Nat))
    (hidx : ∀ p ∈ idx, p ∈ m.mIndices ∨ (p.2 = m.mArgs.length ∧ is_valid_name p.1 = true))
    (a : Argument) (dv : Value) :
    WF { m with mIndices := idx, mArgs := m.mArgs ++ [a], mValues := m.mValues ++ [dv] } := by
  refine ⟨by simp [hwf.1], ?_⟩
  intro p hp
  simp only [List.length_append, List.length_singleton]
  rcases hidx p hp with h | ⟨h1, h2⟩
  · exact ⟨Nat.lt_succ_of_lt (hwf.2 p h).1, (hwf.2 p h).2⟩
  · exact ⟨by rw [h1, hwf.1]; exact Nat.lt_succ_self _, h2⟩

theorem add_wf {m : ArgumentManager} (hwf : WF m) (name : Str) (dv : Value) (o : Bool)
    (h : Str) : WF (add m name dv o h).2 := by
  rcases add_cases m name dv o h with ⟨hv, _, heq⟩ | ⟨_, msg, hmsg⟩
  · rw [heq]
    apply wf_append hwf
    intro p hp
    rcases mem_assign hp with h1 | h1
    · exact Or.inl h1
    · exact Or.inr (by rw [h1]; exact ⟨rfl, hv⟩)
  · rw [hmsg]; exact hwf

theorem add_alt_wf {m : ArgumentManager} (hwf : WF m) (name altname : Str) (dv : Value)
    (o : Bool) (h : Str) : WF (add_alt m name altname dv o h).2 := by
  rcases add_alt_cases m name altname dv o h with ⟨hv, hv2, _, _, heq⟩ | ⟨_, msg, hmsg⟩
  · rw [heq]
    apply wf_append hwf
    intro p hp
    rcases mem_assign hp with h1 | h1
    · rcases mem_assign h1 with h2 | h2
      · exact Or.inl h2
      · exact Or.inr (by rw [h2]; exact ⟨rfl, hv⟩)
    · exact Or.inr (by rw [h1]; exact ⟨rfl, hv2⟩)
  · rw [hmsg]; exact hwf

theorem wf_find_fresh {m : ArgumentManager} (hwf : WF m) (name : Str) :
    find m.mIndices name ≠ some m.mArgs.length := by
  intro hf
  have := (hwf.2 _ (find_some_mem hf)).1
  simp only at this
  rw [hwf.1] at this
  exact Nat.lt_irrefl _ this

theorem placeholders_eq (k : Nat) : placeholders k = List.replicate (max k 1) "0".toList := by
  unfold placeholders
  by_cases hk : k = 0
  · simp [hk]
  · have : max k 1 = k := by omega
    simp [hk, this]

theorem count_fits_iff (num : Nat) :
    count_fits num = true ↔ (if num = 0 then 1 else num) ≤ INT_MAX := by
  simp [count_fits]

theorem add_num_returned (m : ArgumentManager) (name : Str) (num : Nat) (o : Bool) (h : Str)
    (hfit : count_fits num = true) :
    add_num m name num o h = .returned (add m name (placeholders num) o h) := by
  have h1 := (count_fits_iff num).mp hfit
  have h2 : INT_MAX ≤ max_size := by decide
  have h3 : ¬ max_size < (if num = 0 then 1 else num) := by omega
  have h4 : ¬ INT_MAX < (if num = 0 then 1 else num) := by omega
  simp only [add_num, if_neg h3, if_neg h4]

theorem add_num_thrown (m : ArgumentManager) (name : Str) (num : Nat) (o : Bool) (h : Str)
    (hfit : count_fits num = false) :
    add_num m name num o h = .length_error ∨ add_num m name num o h = .undefined := by
  have h1 : ¬ (if num = 0 then 1 else num) ≤ INT_MAX := by
    intro hle
    rw [(count_fits_iff num).mpr hle] at hfit
    cases hfit
  have h4 : INT_MAX < (if num = 0 then 1 else num) := by omega
  by_cases h3 : max_size < (if num = 0 then 1 else num)
  · left; simp only [add_num, if_pos h3]
  · right; simp only [add_num, if_neg h3, if_pos h4]

theorem add_alt_num_returned (m : ArgumentManager) (name altname : Str) (num : Nat) (o : Bool)
    (h : Str) (hfit : count_fits num = true) :
    add_alt_num m name altname num o h =
      .returned (add_alt m name altname (placeholders num) o h) := by
  have h1 := (count_fits_iff num).mp hfit
  have h2 : INT_MAX ≤ max_size := by decide
  have h3 : ¬ max_size < (if num = 0 then 1 else num) := by omega
  have h4 : ¬ INT_MAX < (if num = 0 then 1 else num) := by omega
  simp only [add_alt_num, if_neg h3, if_neg h4]

theorem add_alt_num_thrown (m : ArgumentManager) (name altname : Str) (num : Nat) (o : Bool)
    (h : Str) (hfit : count_fits num = false) :
    add_alt_num m name altname num o h = .length_error ∨
      add_alt_num m name altname num o h = .undefined := by
  have h1 : ¬ (if num = 0 then 1 else num) ≤ INT_MAX := by
    intro hle
    rw [(count_fits_iff num).mpr hle] at hfit
    cases hfit
  have h4 : INT_MAX < (if num = 0 then 1 else num) := by omega
  by_cases h3 : max_size < (if num = 0 then 1 else num)
  · left; simp only [add_alt_num, if_pos h3]
  · right; simp only [add_alt_num, if_neg h3, if_pos h4]

/-- A count overload that returns has built the placeholders and called the
default-value overload. -/
theorem add_num_eq_returned {m : ArgumentManager} {name : Str} {num : Nat} {o : Bool}
    {h : Str} {r : Option Nat × ArgumentManager} (hr : add_num m name num o h = .returned r) :
    count_fits num = true ∧ r = add m name (placeholders num) o h := by
  cases hfit : count_fits num with
  | true =>
    rw [add_num_returned m name num o h hfit] at hr
    exact ⟨rfl, (Outcome.returned.inj hr).symm⟩
  | false =>
    rcases add_num_thrown m name num o h hfit with e | e <;> rw [e] at hr <;> cases hr

theorem add_alt_num_eq_returned {m : ArgumentManager} {name altname : Str} {num : Nat}
    {o : Bool} {h : Str} {r : Option Nat × ArgumentManager}
    (hr : add_alt_num m name altname num o h = .returned r) :
    count_fits num = true ∧ r = add_alt m name altname (placeholders num) o h := by
  cases hfit : count_fits num with
  | true =>
    rw [add_alt_num_returned m name altname num o h hfit] at hr
    exact ⟨rfl, (Outcome.returned.inj hr).symm⟩
  | false =>
    rcases add_alt_num_thrown m name altname num o h hfit with e | e <;> rw [e] at hr <;>
      cases hr

theorem call_add_num {m m' : ArgumentManager} {name : Str} {num : Nat} {o : Bool} {h : Str}
    (hc : call m (.add_num name num o h) = some m') :
    count_fits num = true ∧ m' = (add m name (placeholders num) o h).2 := by
  simp only [call] at hc
  cases hr : add_num m name num o h with
  | returned r =>
    rw [hr] at hc
    simp only [Option.some.injEq] at hc
    obtain ⟨hfit, hreq⟩ := add_num_eq_returned hr
    exact ⟨hfit, by rw [← hc, hreq]⟩
  | length_error => rw [hr] at hc; cases hc
  | undefined => rw [hr] at hc; cases hc

theorem call_add_alt_num {m m' : ArgumentManager} {name altname : Str} {num : Nat} {o : Bool}
    {h : Str} (hc : call m (.add_alt_num name altname num o h) = some m') :
    count_fits num = true ∧ m' = (add_alt m name altname (placeholders num) o h).2 := by
  simp only [call] at hc
  cases hr : add_alt_num m name altname num o h with
  | returned r =>
    rw [hr] at hc
    simp only [Option.some.injEq] at hc
    obtain ⟨hfit, hreq⟩ := add_alt_num_eq_returned hr
    exact ⟨hfit, by rw [← hc, hreq]⟩
  | length_error => rw [hr] at hc; cases hc
  | undefined => rw [hr] at hc; cases hc

/-! ## Parsing: lemmas -/

theorem Stable.refl (m : ArgumentManager) : Stable m m :=
  ⟨rfl, rfl, rfl, rfl, rfl, List.prefix_refl _⟩

theorem Stable.trans {a b c : ArgumentManager} (h1 : Stable a b) (h2 : Stable b c) :
    Stable a c :=
  ⟨h2.programName.trans h1.programName, h2.description.trans h1.description,
    h2.indices.trans h1.indices, h2.args.trans h1.args, h2.sizes.trans h1.sizes,
    h1.errors.trans h2.errors⟩

theorem Stable.length_values {m m' : ArgumentManager} (h : Stable m m') :
    m'.mValues.length = m.mValues.length := by
  have := congrArg List.length h.sizes
  simpa using this

theorem Stable.wf {m m' : ArgumentManager} (h : Stable m m') (hwf : WF m) : WF m' := by
  refine ⟨?_, ?_⟩
  · rw [h.args, h.length_values]; exact hwf.1
  · rw [h.indices, h.length_values]; exact hwf.2

theorem Stable.push_error (m : ArgumentManager) (msg : Str) : Stable m (push_error m msg) :=
  ⟨rfl, rfl, rfl, rfl, rfl, List.prefix_append _ _⟩

theorem Stable.bin_name (m : ArgumentManager) (b : Str) : Stable m { m with mBinName := b } :=
  ⟨rfl, rfl, rfl, rfl, rfl, List.prefix_refl _⟩

theorem sizes_modify_set (l : List Value) (index j : Nat) (t : Str) :
    (List.modify (fun slot => slot.set j t) index l).map List.length = l.map List.length := by
  apply List.ext_getElem?
  intro n
  rw [List.getElem?_map, List.getElem?_map, List.getElem?_modify]
  cases l[n]? with
  | none => rfl
  | some a =>
    by_cases hn : index = n
    · simp [hn]
    · simp [hn]

theorem parse_value_stable (tokens : List Str) (i index : Nat) (m : ArgumentManager) (j : Nat) :
    Stable m (parse_value tokens i index m j) := by
  unfold parse_value
  simp only
  split
  · exact Stable.push_error m _
  · exact ⟨rfl, rfl, rfl, rfl, sizes_modify_set _ _ _ _, List.prefix_refl _⟩

theorem parse_value_other (tokens : List Str) (i index : Nat) (m : ArgumentManager) (j : Nat)
    (id : Nat) (hne : index ≠ id) :
    (parse_value tokens i index m j).mValues[id]? = m.mValues[id]? := by
  unfold parse_value
  simp only
  split
  · rfl
  · simp [List.getElem?_modify, hne, push_error]

theorem foldl_parse_value_stable (tokens : List Str) (i index : Nat) (js : List Nat) :
    ∀ m : ArgumentManager, Stable m (js.foldl (parse_value tokens i index) m) := by
  induction js with
  | nil => intro m; exact Stable.refl m
  | cons j rest ih =>
    intro m
    exact (parse_value_stable tokens i index m j).trans (ih _)

theorem foldl_parse_value_other (tokens : List Str) (i index id : Nat) (hne : index ≠ id)
    (js : List Nat) :
    ∀ m : ArgumentManager,
      (js.foldl (parse_value tokens i index) m).mValues[id]? = m.mValues[id]? := by
  induction js with
  | nil => intro m; rfl
  | cons j rest ih =>
    intro m
    rw [List.foldl_cons, ih, parse_value_other tokens i index m j id hne]

theorem wf_find_lt {m : ArgumentManager} (hwf : WF m) {name : Str} {index : Nat}
    (hf : find m.mIndices name = some index) :
    index < m.mValues.length ∧ is_valid_name name = true :=
  hwf.2 _ (find_some_mem hf)

theorem parse_step_stable {tokens : List Str} {i : Nat} {m : ArgumentManager} {i' : Nat}
    {m' : ArgumentManager} (h : parse_step tokens i m = some (i', m')) :
    i < i' ∧ Stable m m' := by
  unfold parse_step at h
  split at h
  · simp only [Option.some.injEq, Prod.mk.injEq] at h
    obtain ⟨h1, h2⟩ := h
    subst h1 h2
    exact ⟨Nat.lt_succ_self _, Stable.push_error m _⟩
  · split at h
    · simp only [Option.some.injEq, Prod.mk.injEq] at h
      obtain ⟨h1, h2⟩ := h
      subst h1 h2
      exact ⟨Nat.lt_succ_self _, Stable.push_error m _⟩
    · split at h
      · cases h
      · simp only [Option.some.injEq, Prod.mk.injEq] at h
        obtain ⟨h1, h2⟩ := h
        subst h1 h2
        exact ⟨by omega, foldl_parse_value_stable _ _ _ _ _⟩

theorem parse_step_defined (tokens : List Str) (i : Nat) {m : ArgumentManager} (hwf : WF m) :
    ∃ r, parse_step tokens i m = some r := by
  unfold parse_step
  split
  · exact ⟨_, rfl⟩
  · split
    · exact ⟨_, rfl⟩
    · rename_i index hf
      have hlt := (wf_find_lt hwf hf).1
      rw [List.getElem?_eq_getElem hlt]
      exact ⟨_, rfl⟩

theorem parse_step_other {tokens : List Str} {i : Nat} {m : ArgumentManager} {i' : Nat}
    {m' : ArgumentManager} (h : parse_step tokens i m = some (i', m')) (id : Nat)
    (hne : find m.mIndices (tokens.getD i []) ≠ some id) :
    m'.mValues[id]? = m.mValues[id]? := by
  unfold parse_step at h
  split at h
  · simp only [Option.some.injEq, Prod.mk.injEq] at h
    rw [← h.2]; rfl
  · split at h
    · simp only [Option.some.injEq, Prod.mk.injEq] at h
      rw [← h.2]; rfl
    · rename_i index hf
      split at h
      · cases h
      · simp only [Option.some.injEq, Prod.mk.injEq] at h
        rw [← h.2]
        have hidx : index ≠ id := by
          intro e; apply hne; rw [hf, e]
        exact foldl_parse_value_other _ _ _ _ hidx _ _

theorem parse_loop_total (tokens : List Str) :
    ∀ (fuel i : Nat) (m : ArgumentManager), WF m → 0 < fuel → tokens.length < fuel + i →
      ∃ m', parse_loop fuel tokens i m = some m' ∧ Stable m m' := by
  intro fuel
  induction fuel with
  | zero => intro i m _ h0; exact absurd h0 (Nat.lt_irrefl 0)
  | succ fuel ih =>
    intro i m hwf _ hlen
    unfold parse_loop
    by_cases hi : i < tokens.length
    · rw [if_pos hi]
      obtain ⟨⟨i', m1⟩, hstep⟩ := parse_step_defined tokens i hwf
      obtain ⟨hlt, hst⟩ := parse_step_stable hstep
      rw [hstep]
      obtain ⟨m', hm', hst'⟩ := ih i' m1 (hst.wf hwf) (by omega) (by omega)
      exact ⟨m', hm', hst.trans hst'⟩
    · rw [if_neg hi]
      exact ⟨m, rfl, Stable.refl m⟩

theorem parse_loop_other (tokens : List Str) (id : Nat) :
    ∀ (fuel i : Nat) (m m' : ArgumentManager), parse_loop fuel tokens i m = some m' →
      (∀ c ∈ cursors fuel tokens i m, find m.mIndices (tokens.getD c []) ≠ some id) →
      m'.mValues[id]? = m.mValues[id]? := by
  intro fuel
  induction fuel with
  | zero => intro i m m' h; simp [parse_loop] at h
  | succ fuel ih =>
    intro i m m' h hc
    unfold parse_loop at h
    unfold cursors at hc
    by_cases hi : i < tokens.length
    · rw [if_pos hi] at h hc
      cases hstep : parse_step tokens i m with
      | none => rw [hstep] at h; cases h
      | some r =>
        obtain ⟨i', m1⟩ := r
        rw [hstep] at h hc
        simp only at h hc
        have hst := (parse_step_stable hstep).2
        have h1 := parse_step_other hstep id (hc i (List.mem_cons_self _ _))
        have h2 := ih i' m1 m' h (by
          intro c hcm
          rw [hst.indices]
          exact hc c (List.mem_cons_of_mem _ hcm))
        rw [h2, h1]
    · rw [if_neg hi] at h
      cases h
      rfl

theorem cursors_bounds (tokens : List Str) :
    ∀ (fuel i : Nat) (m : ArgumentManager), ∀ c ∈ cursors fuel tokens i m,
      i ≤ c ∧ c < tokens.length := by
  intro fuel
  induction fuel with
  | zero => intro i m c hc; simp [cursors] at hc
  | succ fuel ih =>
    intro i m c hc
    unfold cursors at hc
    by_cases hi : i < tokens.length
    · rw [if_pos hi] at hc
      cases hstep : parse_step tokens i m with
      | none =>
        rw [hstep] at hc
        simp only [List.mem_singleton] at hc
        subst hc
        exact ⟨Nat.le_refl _, hi⟩
      | some r =>
        obtain ⟨i', m1⟩ := r
        rw [hstep] at hc
        simp only [List.mem_cons] at hc
        rcases hc with hc | hc
        · subst hc; exact ⟨Nat.le_refl _, hi⟩
        · have := ih i' m1 c hc
          have hlt := (parse_step_stable hstep).1
          exact ⟨by omega, this.2⟩
    · rw [if_neg hi] at hc
      cases hc

theorem parse_total (m : ArgumentManager) (hwf : WF m) (token0 : Str) (rest : List Str) :
    ∃ m', parse m (token0 :: rest) = some (m'.mErrorMessages.length, m') ∧ Stable m m' ∧
      parse_loop (token0 :: rest).length (token0 :: rest) 1
        { m with mBinName := bin_name token0 } = some m' := by
  have hst0 := Stable.bin_name m (bin_name token0)
  obtain ⟨m', hm', hst⟩ := parse_loop_total (token0 :: rest) (token0 :: rest).length 1
    { m with mBinName := bin_name token0 } (hst0.wf hwf) (by simp) (by simp)
  refine ⟨m', ?_, hst0.trans hst, hm'⟩
  simp only [parse, hm']

/-! ## Decimal text: lemmas -/

theorem digitChar_spec : ∀ k, k < 10 →
    (Nat.digitChar k).isDigit = true ∧ (Nat.digitChar k).toNat - '0'.toNat = k := by
  decide

theorem isDigit_bounds {c : Char} (h : c.isDigit = true) : 48 ≤ c.toNat ∧ c.toNat ≤ 57 := by
  simp only [Char.isDigit, Bool.and_eq_true, decide_eq_true_eq, ge_iff_le] at h
  obtain ⟨h1, h2⟩ := h
  rw [UInt32.le_def] at h1 h2
  exact ⟨h1, h2⟩

theorem isDigit_not_dash {c : Char} (h : c.isDigit = true) : c ≠ '-' := by
  have hb := isDigit_bounds h
  intro e; rw [e] at hb; revert hb; decide

theorem digits_value_snoc (p : Str) (c : Char) :
    digits_value (p ++ [c]) = 10 * digits_value p + (c.toNat - '0'.toNat) := by
  simp [digits_value, List.foldl_append]

theorem toDigitsCore_spec : ∀ (fuel n : Nat) (ds : List Char), n < fuel →
    ∃ p, Nat.toDigitsCore 10 fuel n ds = p ++ ds ∧ p ≠ [] ∧
      (∀ c ∈ p, c.isDigit = true) ∧ digits_value p = n := by
  intro fuel
  induction fuel with
  | zero => intro n ds h; exact absurd h (Nat.not_lt_zero _)
  | succ fuel ih =>
    intro n ds hn
    have hd := digitChar_spec (n % 10) (Nat.mod_lt _ (by decide))
    unfold Nat.toDigitsCore
    by_cases hq : n / 10 = 0
    · simp only [hq, if_true]
      refine ⟨[Nat.digitChar (n % 10)], rfl, by simp, ?_, ?_⟩
      · intro c hc
        simp only [List.mem_singleton] at hc
        rw [hc]; exact hd.1
      · have hlt : n < 10 := by omega
        have := digits_value_snoc [] (Nat.digitChar (n % 10))
        simp only [List.nil_append] at this
        rw [this, hd.2]
        simp [digits_value]
        omega
    · simp only [hq, if_false]
      obtain ⟨p, hp, _, hall, hval⟩ := ih (n / 10) (Nat.digitChar (n % 10) :: ds) (by omega)
      refine ⟨p ++ [Nat.digitChar (n % 10)], by rw [hp]; simp, by simp, ?_, ?_⟩
      · intro c hc
        rcases List.mem_append.mp hc with h1 | h1
        · exact hall c h1
        · simp only [List.mem_singleton] at h1
          rw [h1]; exact hd.1
      · rw [digits_value_snoc, hval, hd.2]
        omega

theorem decimal_text_spec (n : Nat) :
    decimal_text n ≠ [] ∧ (∀ c ∈ decimal_text n, c.isDigit = true) ∧
      digits_value (decimal_text n) = n := by
  obtain ⟨p, hp, hne, hall, hval⟩ := toDigitsCore_spec (n + 1) n [] (Nat.lt_succ_self n)
  have : decimal_text n = p := by
    simp [decimal_text, Nat.toDigits, hp]
  rw [this]
  exact ⟨hne, hall, hval⟩

theorem decimal_text_not_name (n : Nat) : is_valid_name (decimal_text n) = false := by
  obtain ⟨hne, hall, _⟩ := decimal_text_spec n
  cases hd : decimal_text n with
  | nil => exact absurd hd hne
  | cons c rest =>
    have hc : c.isDigit = true := hall c (by rw [hd]; exact List.mem_cons_self _ _)
    have := isDigit_not_dash hc
    simp [is_valid_name, this]

/-! ## Sequences of calls: lemmas -/

theorem modify_set_single {l : List Value} {id : Nat} {s0 : Str} (hs : l[id]? = some [s0])
    (v : Str) : (List.modify (fun slot => slot.set 0 v) id l)[id]? = some [v] := by
  rw [List.getElem?_modify, hs]
  simp

/-- The parse of one registered option of arity 1 followed by one value. -/
theorem parse_single_value (m : ArgumentManager) (hwf : WF m) (prog name v : Str) (id : Nat)
    (s0 : Str) (hf : find m.mIndices name = some id) (hs : m.mValues[id]? = some [s0])
    (hv : is_valid_name v = false) :
    ∃ m', parse m [prog, name, v] = some (m.mErrorMessages.length, m') ∧
      m'.mIndices = m.mIndices ∧ m'.mErrorMessages = m.mErrorMessages ∧
      m'.mValues[id]? = some [v] ∧
      m'.mValues = List.modify (fun slot => slot.set 0 v) id m.mValues := by
  have hname := (wf_find_lt hwf hf).2
  refine ⟨{ m with
      mBinName := bin_name prog
      mValues := List.modify (fun slot => slot.set 0 v) id m.mValues },
    ?_, rfl, rfl, modify_set_single hs v, rfl⟩
  simp [parse, parse_loop, parse_step, parse_values, parse_value, hf, hs, hv, hname,
    List.range_succ]

theorem construct_eq (p d : Str) :
    construct p d =
      { mBinName := [], mProgramName := p, mDescription := d,
        mIndices := [("-h".toList, 0), ("--help".toList, 0)],
        mArgs := [Argument.mk "-h".toList "--help".toList true
          "output the program's usage".toList],
        mValues := [["0".toList]], mErrorMessages := [] } := by
  rfl

theorem construct_wf (p d : Str) : WF (construct p d) := by
  rw [construct_eq]
  refine ⟨rfl, ?_⟩
  intro q hq
  simp only [List.mem_cons, List.mem_singleton, List.not_mem_nil, or_false] at hq
  rcases hq with rfl | rfl <;> exact ⟨Nat.zero_lt_one, by decide⟩

theorem parse_loop_stable (tokens : List Str) :
    ∀ (fuel i : Nat) (m m' : ArgumentManager), parse_loop fuel tokens i m = some m' →
      Stable m m' := by
  intro fuel
  induction fuel with
  | zero => intro i m m' h; simp [parse_loop] at h
  | succ fuel ih =>
    intro i m m' h
    unfold parse_loop at h
    by_cases hi : i < tokens.length
    · rw [if_pos hi] at h
      cases hstep : parse_step tokens i m with
      | none => rw [hstep] at h; cases h
      | some r =>
        obtain ⟨i', m1⟩ := r
        rw [hstep] at h
        exact (parse_step_stable hstep).2.trans (ih i' m1 m' h)
    · rw [if_neg hi] at h
      cases h
      exact Stable.refl m

theorem parse_stable {m : ArgumentManager} {tokens : List Str} {r : Nat × ArgumentManager}
    (h : parse m tokens = some r) : Stable m r.2 ∧ r.1 = r.2.mErrorMessages.length := by
  cases tokens with
  | nil => simp [parse] at h
  | cons token0 rest =>
    simp only [parse] at h
    cases hl : parse_loop (token0 :: rest).length (token0 :: rest) 1
        { m with mBinName := bin_name token0 } with
    | none => rw [hl] at h; cases h
    | some m' =>
      rw [hl] at h
      cases h
      exact ⟨(Stable.bin_name m _).trans (parse_loop_stable _ _ _ _ _ hl), rfl⟩

theorem Stable.slot {m m' : ArgumentManager} (h : Stable m m') {id : Nat} {s : Value}
    (hs : m.mValues[id]? = some s) :
    ∃ s', m'.mValues[id]? = some s' ∧ s'.length = s.length := by
  have h1 : (m'.mValues.map List.length)[id]? = (m.mValues.map List.length)[id]? := by
    rw [h.sizes]
  rw [List.getElem?_map, List.getElem?_map, hs] at h1
  cases hs' : m'.mValues[id]? with
  | none => rw [hs'] at h1; cases h1
  | some s' =>
    rw [hs'] at h1
    simp only [Option.map_some', Option.some.injEq] at h1
    exact ⟨s', rfl, h1⟩

theorem add_keeps (m : ArgumentManager) (name : Str) (dv : Value) (o : Bool)
    (h : Str) :
    (∀ k v, find m.mIndices k = some v → find (add m name dv o h).2.mIndices k = some v) ∧
    (∀ (id : Nat) (s : Value), m.mValues[id]? = some s → (add m name dv o h).2.mValues[id]? = some s) := by
  rcases add_cases m name dv o h with ⟨_, hf, heq⟩ | ⟨_, msg, hmsg⟩
  · rw [heq]
    refine ⟨fun k v hk => ?_, fun id s hs => ?_⟩
    · have hne : k ≠ name := by
        intro e; rw [e, hf] at hk; cases hk
      simp only [find_assign, if_neg hne, hk]
    · have hlt : id < m.mValues.length := by
        by_contra hge
        rw [List.getElem?_eq_none (Nat.le_of_not_lt hge)] at hs
        cases hs
      simp only [List.getElem?_append_left hlt, hs]
  · rw [hmsg]
    exact ⟨fun k v hk => hk, fun id s hs => hs⟩

theorem add_alt_keeps (m : ArgumentManager) (name altname : Str) (dv : Value)
    (o : Bool) (h : Str) :
    (∀ k v, find m.mIndices k = some v →
      find (add_alt m name altname dv o h).2.mIndices k = some v) ∧
    (∀ (id : Nat) (s : Value), m.mValues[id]? = some s →
      (add_alt m name altname dv o h).2.mValues[id]? = some s) := by
  rcases add_alt_cases m name altname dv o h with ⟨_, _, hf, hf2, heq⟩ | ⟨_, msg, hmsg⟩
  · rw [heq]
    refine ⟨fun k v hk => ?_, fun id s hs => ?_⟩
    · have hne : k ≠ name := by
        intro e; rw [e, hf] at hk; cases hk
      have hne2 : k ≠ altname := by
        intro e; rw [e, hf2] at hk; cases hk
      simp only [find_assign, if_neg hne, if_neg hne2, hk]
    · have hlt : id < m.mValues.length := by
        by_contra hge
        rw [List.getElem?_eq_none (Nat.le_of_not_lt hge)] at hs
        cases hs
      simp only [List.getElem?_append_left hlt, hs]
  · rw [hmsg]
    exact ⟨fun k v hk => hk, fun id s hs => hs⟩

/-- What every call keeps: well-formedness, the bindings of the name index, and the
existence and the size of every slot. -/
theorem call_keeps {m m' : ArgumentManager} (hwf : WF m) (c : Call) (hc : call m c = some m') :
    WF m' ∧ (∀ k v, find m.mIndices k = some v → find m'.mIndices k = some v) ∧
    (∀ (id : Nat) (s : Value), m.mValues[id]? = some s → ∃ s', m'.mValues[id]? = some s' ∧
      s'.length = s.length) := by
  cases c with
  | add name dv o h =>
    simp only [call, Option.some.injEq] at hc
    subst hc
    exact ⟨add_wf hwf name dv o h, (add_keeps m name dv o h).1,
      fun id s hs => ⟨s, (add_keeps m name dv o h).2 id s hs, rfl⟩⟩
  | add_num name num o h =>
    have hc' := (call_add_num hc).2
    subst hc'
    exact ⟨add_wf hwf name _ o h, (add_keeps m name _ o h).1,
      fun id s hs => ⟨s, (add_keeps m name _ o h).2 id s hs, rfl⟩⟩
  | add_alt name altname dv o h =>
    simp only [call, Option.some.injEq] at hc
    subst hc
    exact ⟨add_alt_wf hwf name altname dv o h, (add_alt_keeps m name altname dv o h).1,
      fun id s hs => ⟨s, (add_alt_keeps m name altname dv o h).2 id s hs, rfl⟩⟩
  | add_alt_num name altname num o h =>
    have hc' := (call_add_alt_num hc).2
    subst hc'
    exact ⟨add_alt_wf hwf name altname _ o h, (add_alt_keeps m name altname _ o h).1,
      fun id s hs => ⟨s, (add_alt_keeps m name altname _ o h).2 id s hs, rfl⟩⟩
  | parse tokens =>
    simp only [call] at hc
    cases hp : parse m tokens with
    | none => rw [hp] at hc; cases hc
    | some r =>
      rw [hp] at hc
      simp only [Option.map_some', Option.some.injEq] at hc
      subst hc
      have hst := (parse_stable hp).1
      exact ⟨hst.wf hwf, fun k v hk => by rw [hst.indices]; exact hk,
        fun id s hs => hst.slot hs⟩

theorem calls_keep : ∀ (cs : List Call) {m m' : ArgumentManager}, WF m →
    calls m cs = some m' →
    WF m' ∧ (∀ k v, find m.mIndices k = some v → find m'.mIndices k = some v) ∧
    (∀ (id : Nat) (s : Value), m.mValues[id]? = some s → ∃ s', m'.mValues[id]? = some s' ∧
      s'.length = s.length) := by
  intro cs
  induction cs with
  | nil =>
    intro m m' hwf h
    simp only [calls, Option.some.injEq] at h
    subst h
    exact ⟨hwf, fun _ _ hk => hk, fun _ s hs => ⟨s, hs, rfl⟩⟩
  | cons c rest ih =>
    intro m m' hwf h
    simp only [calls] at h
    cases hc : call m c with
    | none => rw [hc] at h; cases h
    | some m1 =>
      rw [hc] at h
      obtain ⟨hwf1, hk1, hs1⟩ := call_keeps hwf c hc
      obtain ⟨hwf2, hk2, hs2⟩ := ih hwf1 h
      refine ⟨hwf2, fun k v hk => hk2 k v (hk1 k v hk), fun id s hs => ?_⟩
      obtain ⟨s1, h1, hl1⟩ := hs1 id s hs
      obtain ⟨s2, h2, hl2⟩ := hs2 id s1 h1
      exact ⟨s2, h2, hl2.trans hl1⟩

/-- Every state reached from the constructor by `add` and `parse` calls is well
formed. -/
theorem reachable_wf (p d : Str) (cs : List Call) {m : ArgumentManager}
    (h : calls (construct p d) cs = some m) : WF m :=
  (calls_keep cs (construct_wf p d) h).1

theorem add_binds (m : ArgumentManager) (name : Str) (dv : Value) (o : Bool) (h : Str)
    (id : Nat) (hid : id < m.mArgs.length) (k : Str)
    (hk : find (add m name dv o h).2.mIndices k = some id) : find m.mIndices k = some id := by
  rcases add_cases m name dv o h with ⟨_, _, heq⟩ | ⟨_, msg, hmsg⟩
  · rw [heq] at hk
    simp only [find_assign] at hk
    by_cases e : k = name
    · rw [if_pos e] at hk
      simp only [Option.some.injEq] at hk
      omega
    · rw [if_neg e] at hk; exact hk
  · rw [hmsg] at hk; exact hk

theorem add_alt_binds (m : ArgumentManager) (name altname : Str) (dv : Value) (o : Bool)
    (h : Str) (id : Nat) (hid : id < m.mArgs.length) (k : Str)
    (hk : find (add_alt m name altname dv o h).2.mIndices k = some id) :
    find m.mIndices k = some id := by
  rcases add_alt_cases m name altname dv o h with ⟨_, _, _, _, heq⟩ | ⟨_, msg, hmsg⟩
  · rw [heq] at hk
    simp only [find_assign] at hk
    by_cases e : k = altname
    · rw [if_pos e] at hk
      simp only [Option.some.injEq] at hk
      omega
    · rw [if_neg e] at hk
      by_cases e' : k = name
      · rw [if_pos e'] at hk
        simp only [Option.some.injEq] at hk
        omega
      · rw [if_neg e'] at hk; exact hk
  · rw [hmsg] at hk; exact hk

theorem add_length_le (m : ArgumentManager) (name : Str) (dv : Value) (o : Bool) (h : Str) :
    m.mArgs.length ≤ (add m name dv o h).2.mArgs.length := by
  rcases add_cases m name dv o h with ⟨_, _, heq⟩ | ⟨_, msg, hmsg⟩
  · rw [heq]; simp
  · rw [hmsg]; exact Nat.le_refl _

theorem add_alt_length_le (m : ArgumentManager) (name altname : Str) (dv : Value) (o : Bool)
    (h : Str) : m.mArgs.length ≤ (add_alt m name altname dv o h).2.mArgs.length := by
  rcases add_alt_cases m name altname dv o h with ⟨_, _, _, _, heq⟩ | ⟨_, msg, hmsg⟩
  · rw [heq]; simp
  · rw [hmsg]; exact Nat.le_refl _

/-- What a call of `add` keeps: the contents of every slot, and the set of names
bound to a slot that exists. -/
theorem add_call_keeps {m m' : ArgumentManager} (c : Call) (hadd : c.is_add = true)
    (hc : call m c = some m') :
    m.mArgs.length ≤ m'.mArgs.length ∧
    (∀ (id : Nat) (s : Value), m.mValues[id]? = some s → m'.mValues[id]? = some s) ∧
    (∀ (id : Nat) (k : Str), id < m.mArgs.length → find m'.mIndices k = some id →
      find m.mIndices k = some id) := by
  cases c with
  | add name dv o h =>
    simp only [call, Option.some.injEq] at hc
    subst hc
    exact ⟨add_length_le m name dv o h, (add_keeps m name dv o h).2,
      fun id k hid hk => add_binds m name dv o h id hid k hk⟩
  | add_num name num o h =>
    have hc' := (call_add_num hc).2
    subst hc'
    exact ⟨add_length_le m name _ o h, (add_keeps m name _ o h).2,
      fun id k hid hk => add_binds m name _ o h id hid k hk⟩
  | add_alt name altname dv o h =>
    simp only [call, Option.some.injEq] at hc
    subst hc
    exact ⟨add_alt_length_le m name altname dv o h, (add_alt_keeps m name altname dv o h).2,
      fun id k hid hk => add_alt_binds m name altname dv o h id hid k hk⟩
  | add_alt_num name altname num o h =>
    have hc' := (call_add_alt_num hc).2
    subst hc'
    exact ⟨add_alt_length_le m name altname _ o h, (add_alt_keeps m name altname _ o h).2,
      fun id k hid hk => add_alt_binds m name altname _ o h id hid k hk⟩
  | parse tokens => simp [Call.is_add] at hadd

theorem add_calls_keep : ∀ (cs : List Call) {m m' : ArgumentManager},
    (∀ c ∈ cs, c.is_add = true) → calls m cs = some m' →
    m.mArgs.length ≤ m'.mArgs.length ∧
    (∀ (id : Nat) (s : Value), m.mValues[id]? = some s → m'.mValues[id]? = some s) ∧
    (∀ (id : Nat) (k : Str), id < m.mArgs.length → find m'.mIndices k = some id →
      find m.mIndices k = some id) := by
  intro cs
  induction cs with
  | nil =>
    intro m m' _ h
    simp only [calls, Option.some.injEq] at h
    subst h
    exact ⟨Nat.le_refl _, fun _ _ hs => hs, fun _ _ _ hk => hk⟩
  | cons c rest ih =>
    intro m m' hall h
    simp only [calls] at h
    cases hc : call m c with
    | none => rw [hc] at h; cases h
    | some m1 =>
      rw [hc] at h
      obtain ⟨hl1, hs1, hb1⟩ := add_call_keeps c (hall c (List.mem_cons_self _ _)) hc
      obtain ⟨hl2, hs2, hb2⟩ := ih (fun c' hc' => hall c' (List.mem_cons_of_mem _ hc')) h
      exact ⟨Nat.le_trans hl1 hl2, fun id s hs => hs2 id s (hs1 id s hs),
        fun id k hid hk => hb1 id k hid (hb2 id k (Nat.lt_of_lt_of_le hid hl1) hk)⟩

/-- A sequence of calls on a well-formed registry has a defined result as soon as
every call of the sequence returns: every `parse` receives at least one token and
every count given to a count overload of `add` fits. -/
theorem calls_defined : ∀ (cs : List Call) {m : ArgumentManager}, WF m →
    (∀ c ∈ cs, c.returns = true) → ∃ m', calls m cs = some m' := by
  intro cs
  induction cs with
  | nil => intro m _ _; exact ⟨m, rfl⟩
  | cons c rest ih =>
    intro m hwf hne
    have hdef : ∃ m1, call m c = some m1 := by
      cases c with
      | add name dv o h => exact ⟨_, rfl⟩
      | add_num name num o h =>
        have hfit : count_fits num = true := hne _ (List.mem_cons_self _ _)
        exact ⟨(add m name (placeholders num) o h).2,
          by simp only [call, add_num_returned m name num o h hfit]⟩
      | add_alt name altname dv o h => exact ⟨_, rfl⟩
      | add_alt_num name altname num o h =>
        have hfit : count_fits num = true := hne _ (List.mem_cons_self _ _)
        exact ⟨(add_alt m name altname (placeholders num) o h).2,
          by simp only [call, add_alt_num_returned m name altname num o h hfit]⟩
      | parse tokens =>
        cases tokens with
        | nil =>
          have := hne _ (List.mem_cons_self _ _)
          simp [Call.returns] at this
        | cons token0 rest' =>
          obtain ⟨m1, h1, _⟩ := parse_total m hwf token0 rest'
          exact ⟨m1, by simp [call, h1]⟩
    obtain ⟨m1, h1⟩ := hdef
    obtain ⟨m', h'⟩ := ih (call_keeps hwf c h1).1 (fun c' hc' => hne c' (List.mem_cons_of_mem _ hc'))
    exact ⟨m', by simp [calls, h1, h']⟩

/-! ## Claims -/

/-- C1, as the code has it: on every well-formed registry in which the options `A` and
`B` are each declared with a slot of length 1, and for every token `v` that is not
name-shaped, `parse` of `[prog, A, B, v]` does not store `B` as the value of `A` (the
slot of `A` keeps its value) and records `A has less values than expected`; the
fixed-stride advance then steps over the token `B`, so `B` is not parsed: `v` is
examined as an option name and recorded as `v is not a valid option`, no slot
changes, and `value<text>(B)` keeps its previous value. -/
theorem name_prefix_fixed_stride (m : ArgumentManager) (hwf : WF m) (prog A B v : Str)
    (a b : Nat) (x y : Str)
    (hA : find m.mIndices A = some a) (hB : find m.mIndices B = some b)
    (hsa : m.mValues[a]? = some [x]) (hsb : m.mValues[b]? = some [y])
    (hv : is_valid_name v = false) :
    ∃ m', parse m [prog, A, B, v] = some (m.mErrorMessages.length + 2, m') ∧
      m'.mErrorMessages = m.mErrorMessages ++
        [A ++ " has less values than expected".toList, v ++ " is not a valid option".toList] ∧
      m'.mValues = m.mValues ∧
      value_text m' A 0 = .ok x ∧ value_text m' B 0 = .ok y ∧
      values_text m' B = .ok [y] := by
  have hvA := (wf_find_lt hwf hA).2
  have hvB := (wf_find_lt hwf hB).2
  refine ⟨{ m with
      mBinName := bin_name prog
      mErrorMessages := m.mErrorMessages ++
        [A ++ " has less values than expected".toList, v ++ " is not a valid option".toList] },
    ?_, rfl, rfl, ?_, ?_, ?_⟩
  · simp [parse, parse_loop, parse_step, parse_values, parse_value, hA, hsa, hv, hvA, hvB,
      List.range_succ, push_error]
  · exact value_text_eq (m := { m with mBinName := _, mErrorMessages := _ }) hA hsa 0
  · exact value_text_eq (m := { m with mBinName := _, mErrorMessages := _ }) hB hsb 0
  · exact values_text_eq (m := { m with mBinName := _, mErrorMessages := _ }) hB hsb

/-- The witness of C1 as amended: `--flag` and `--other` declared with arity 1 on a
fresh registry, and the tokens `prog --flag --other v`. -/
theorem name_prefix_fixed_stride_witness :
    WF (add (add (construct [] []) "--flag".toList (placeholders 1) false []).2
      "--other".toList (placeholders 1) false []).2 ∧
    find (add (add (construct [] []) "--flag".toList (placeholders 1) false []).2
      "--other".toList (placeholders 1) false []).2.mIndices "--flag".toList = some 1 ∧
    find (add (add (construct [] []) "--flag".toList (placeholders 1) false []).2
      "--other".toList (placeholders 1) false []).2.mIndices "--other".toList = some 2 ∧
    (add (add (construct [] []) "--flag".toList (placeholders 1) false []).2
      "--other".toList (placeholders 1) false []).2.mValues[1]? = some ["0".toList] ∧
    (add (add (construct [] []) "--flag".toList (placeholders 1) false []).2
      "--other".toList (placeholders 1) false []).2.mValues[2]? = some ["0".toList] ∧
    is_valid_name "v".toList = false ∧
    ∃ m', parse (add (add (construct [] []) "--flag".toList (placeholders 1) false []).2
          "--other".toList (placeholders 1) false []).2
        ["prog".toList, "--flag".toList, "--other".toList, "v".toList] =
        some ((add (add (construct [] []) "--flag".toList (placeholders 1) false []).2
          "--other".toList (placeholders 1) false []).2.mErrorMessages.length + 2, m') ∧
      m'.mErrorMessages =
        (add (add (construct [] []) "--flag".toList (placeholders 1) false []).2
          "--other".toList (placeholders 1) false []).2.mErrorMessages ++
        ["--flag".toList ++ " has less values than expected".toList,
          "v".toList ++ " is not a valid option".toList] ∧
      m'.mValues = (add (add (construct [] []) "--flag".toList (placeholders 1) false []).2
        "--other".toList (placeholders 1) false []).2.mValues ∧
      value_text m' "--flag".toList 0 = .ok "0".toList ∧
      value_text m' "--other".toList 0 = .ok "0".toList ∧
      values_text m' "--other".toList = .ok ["0".toList] :=
  ⟨by decide, by decide, by decide, by decide, by decide, by decide,
    name_prefix_fixed_stride _ (by decide) "prog".toList "--flag".toList "--other".toList
      "v".toList 1 2 "0".toList "0".toList (by decide) (by decide) (by decide) (by decide)
      (by decide)⟩

/-- C1 as stated fails: with `--flag` and `--other` declared by `add(name, 1)` on a
fresh registry, `parse` of `prog --flag --other v` returns 2 diagnostics, the second one
`v is not a valid option`, and leaves `value<text>("--other")` at the placeholder
`0`, not at `v`. -/
theorem name_prefix_counterexample :
    calls (construct [] [])
        [Call.add_num "--flag".toList 1 false [], Call.add_num "--other".toList 1 false []] =
      some (add (add (construct [] []) "--flag".toList (placeholders 1) false []).2
        "--other".toList (placeholders 1) false []).2 ∧
    (parse (add (add (construct [] []) "--flag".toList (placeholders 1) false []).2
        "--other".toList (placeholders 1) false []).2
      ["prog".toList, "--flag".toList, "--other".toList, "v".toList]).map
      (fun r => (r.1, value_text r.2 "--flag".toList 0, value_text r.2 "--other".toList 0,
        r.2.mErrorMessages)) =
    some (2, .ok "0".toList, .ok "0".toList,
      ["--flag has less values than expected".toList, "v is not a valid option".toList]) ∧
    (parse (add (add (construct [] []) "--flag".toList (placeholders 1) false []).2
        "--other".toList (placeholders 1) false []).2
      ["prog".toList, "--flag".toList, "--other".toList, "v".toList]).map
      (fun r => value_text r.2 "--other".toList 0) ≠ some (.ok "v".toList) := by
  decide

/-- The text half of the round trip: for every valid option name that is not
registered on a fresh registry, declared with `add(name, 1)`, and every natural number
`n`, the declaration returns, `parse` of `[prog, name, decimal text of n]` returns 0
diagnostics, and afterwards `value<text>(name)` is the decimal text, which denotes
`n`. -/
theorem round_trip_text (p d prog name : Str) (o : Bool) (h : Str) (n : Nat)
    (hv : is_valid_name name = true) (hfree : find (construct p d).mIndices name = none) :
    add_num (construct p d) name 1 o h =
      .returned (add (construct p d) name (placeholders 1) o h) ∧
    digits_value (decimal_text n) = n ∧
    ∃ m', parse (add (construct p d) name (placeholders 1) o h).2
        [prog, name, decimal_text n] = some (0, m') ∧
      value_text m' name 0 = .ok (decimal_text n) := by
  refine ⟨add_num_returned _ _ _ _ _ (by decide), (decimal_text_spec n).2.2, ?_⟩
  have hwf0 := construct_wf p d
  have hwf1 : WF (add (construct p d) name (placeholders 1) o h).2 := add_wf hwf0 _ _ _ _
  have hcases := add_cases (construct p d) name (placeholders 1) o h
  rcases hcases with ⟨_, _, heq⟩ | ⟨hbad, _⟩
  · have hm1 : (add (construct p d) name (placeholders 1) o h).2 = _ := congrArg Prod.snd heq
    have hf : find (add (construct p d) name (placeholders 1) o h).2.mIndices name =
        some 1 := by
      rw [hm1]; simp [find_assign, construct_eq]
    have hs : (add (construct p d) name (placeholders 1) o h).2.mValues[1]? =
        some ["0".toList] := by
      rw [hm1]; simp [construct_eq, placeholders]
    have herr : (add (construct p d) name (placeholders 1) o h).2.mErrorMessages = [] := by
      rw [hm1]; simp [construct_eq]
    obtain ⟨m', hparse, hidx, _, hslot, _⟩ := parse_single_value _ hwf1 prog name
      (decimal_text n) 1 "0".toList hf hs (decimal_text_not_name n)
    rw [herr] at hparse
    rw [← hidx] at hf
    exact ⟨m', hparse, value_text_eq hf hslot 0⟩
  · rcases hbad with hb | hb
    · rw [hv] at hb; cases hb
    · exact absurd hfree hb

/-- C2 at its failing input: `value<int>` cannot be instantiated. `get_value<int>`
compiles every branch of its run-time `typeid` chain, and the first one (line 339)
assigns a string to `out`, of type `int`: of the seven types the chain names, only
`string` gives a well-formed instantiation. The text half of the claim holds at the
witness: with `--count` declared by `add("--count", 1)` on a fresh registry, `parse`
of `prog --count 42` returns 0 and `value<text>("--count")` is `42`. -/
theorem value_int_not_instantiable :
    assignable ValueType.int ValueType.string = false ∧
    get_value_instantiable ValueType.int = false ∧
    get_value_instantiable ValueType.string = true ∧
    calls (construct [] []) [Call.add_num "--count".toList 1 false []] =
      some (add (construct [] []) "--count".toList (placeholders 1) false []).2 ∧
    decimal_text 42 = "42".toList ∧
    (parse (add (construct [] []) "--count".toList (placeholders 1) false []).2
      ["prog".toList, "--count".toList, decimal_text 42]).map
      (fun r => (r.1, value_text r.2 "--count".toList 0)) =
    some (0, .ok "42".toList) := by
  decide

/-- C3: dual-name equivalence. After a successful two-name `add(name, altName, ...)`
on a well-formed registry, in the state after every later sequence of `add` and `parse`
calls both spellings resolve to the same slot: `value<text>(name, i)` equals
`value<text>(altName, i)` for every `i`, and `values<text>(name)` equals
`values<text>(altName)`. When the option has arity 1 and `v` is not name-shaped,
`parse` of `[prog, name, v]` and `parse` of `[prog, altName, v]` both return and leave
`value<text>(name) = value<text>(altName) = v`. -/
theorem dual_name_same_slot (m : ArgumentManager) (hwf : WF m) (name altname : Str)
    (dv : Value) (o : Bool) (h : Str) (hadd : (add_alt m name altname dv o h).1 ≠ none)
    (cs : List Call) (m2 : ArgumentManager)
    (hrun : calls (add_alt m name altname dv o h).2 cs = some m2) :
    (∃ id, find m2.mIndices name = some id ∧ find m2.mIndices altname = some id) ∧
    (∀ i, value_text m2 name i = value_text m2 altname i) ∧
    values_text m2 name = values_text m2 altname ∧
    (∀ d0 prog v, dv = [d0] → is_valid_name v = false →
      (∃ r, parse m2 [prog, name, v] = some r ∧
        value_text r.2 name 0 = .ok v ∧ value_text r.2 altname 0 = .ok v) ∧
      (∃ r, parse m2 [prog, altname, v] = some r ∧
        value_text r.2 name 0 = .ok v ∧ value_text r.2 altname 0 = .ok v)) := by
  have hwf1 := add_alt_wf hwf name altname dv o h
  rcases add_alt_cases m name altname dv o h with ⟨_, _, _, _, heq⟩ | ⟨_, msg, hmsg⟩
  · have hm1 : (add_alt m name altname dv o h).2 = _ := congrArg Prod.snd heq
    have hf1 : find (add_alt m name altname dv o h).2.mIndices name = some m.mArgs.length := by
      rw [hm1]
      by_cases e : name = altname
      · simp [find_assign, e]
      · simp [find_assign, e]
    have hf2 : find (add_alt m name altname dv o h).2.mIndices altname =
        some m.mArgs.length := by
      rw [hm1]; simp [find_assign]
    have hs1 : (add_alt m name altname dv o h).2.mValues[m.mArgs.length]? = some dv := by
      rw [hm1]; simp [hwf.1]
    obtain ⟨hwf2, hk, hs⟩ := calls_keep cs hwf1 hrun
    have hfn := hk _ _ hf1
    have hfa := hk _ _ hf2
    obtain ⟨slot, hslot, hlen⟩ := hs _ _ hs1
    refine ⟨⟨_, hfn, hfa⟩, fun i => ?_, ?_, ?_⟩
    · rw [value_text_eq hfn hslot, value_text_eq hfa hslot]
    · rw [values_text_eq hfn hslot, values_text_eq hfa hslot]
    · intro d0 prog v hdv hv
      have hone : ∃ s0, slot = [s0] := by
        rw [hdv] at hlen
        match slot, hlen with
        | [s0], _ => exact ⟨s0, rfl⟩
      obtain ⟨s0, rfl⟩ := hone
      have after : ∀ spelled, find m2.mIndices spelled = some m.mArgs.length →
          ∃ r, parse m2 [prog, spelled, v] = some r ∧
            value_text r.2 name 0 = .ok v ∧ value_text r.2 altname 0 = .ok v := by
        intro spelled hsp
        obtain ⟨m', hparse, hidx, _, hslot', _⟩ :=
          parse_single_value m2 hwf2 prog spelled v _ s0 hsp hslot hv
        rw [← hidx] at hfn hfa
        exact ⟨_, hparse, value_text_eq hfn hslot' 0, value_text_eq hfa hslot' 0⟩
      exact ⟨after name hfn, after altname hfa⟩
  · rw [hmsg] at hadd; exact absurd rfl hadd

/-- The witness of C3: `-o` and `--output` declared with arity 1 on a fresh registry,
then `-x` declared, then `out.txt` parsed under either spelling. -/
theorem dual_name_same_slot_witness :
    WF (construct [] []) ∧
    add_alt_num (construct [] []) "-o".toList "--output".toList 1 false [] =
      .returned (add_alt (construct [] []) "-o".toList "--output".toList (placeholders 1)
        false []) ∧
    (add_alt (construct [] []) "-o".toList "--output".toList (placeholders 1) false []).1 ≠ none ∧
    calls (add_alt (construct [] []) "-o".toList "--output".toList (placeholders 1) false []).2
        [Call.add_num "-x".toList 1 false []] =
      some (add (add_alt (construct [] []) "-o".toList "--output".toList (placeholders 1) false []).2
        "-x".toList (placeholders 1) false []).2 ∧
    is_valid_name "out.txt".toList = false ∧
    (∃ r, parse (add (add_alt (construct [] []) "-o".toList "--output".toList (placeholders 1)
          false []).2 "-x".toList (placeholders 1) false []).2
        ["prog".toList, "-o".toList, "out.txt".toList] = some r ∧
      value_text r.2 "-o".toList 0 = .ok "out.txt".toList ∧
      value_text r.2 "--output".toList 0 = .ok "out.txt".toList) ∧
    (∃ r, parse (add (add_alt (construct [] []) "-o".toList "--output".toList (placeholders 1)
          false []).2 "-x".toList (placeholders 1) false []).2
        ["prog".toList, "--output".toList, "out.txt".toList] = some r ∧
      value_text r.2 "-o".toList 0 = .ok "out.txt".toList ∧
      value_text r.2 "--output".toList 0 = .ok "out.txt".toList) :=
  ⟨by decide, by decide, by decide, rfl, by decide,
    (dual_name_same_slot (construct [] []) (by decide) "-o".toList "--output".toList
      (placeholders 1) false [] (by decide) [Call.add_num "-x".toList 1 false []] _ rfl).2.2.2
      "0".toList "prog".toList "out.txt".toList rfl (by decide)⟩

/-- C10: `is_valid_name` equals the reference predicate on every string: false for a
string shorter than 2 characters or not starting with a dash; for 2 characters, true
iff the second is a letter; for 3 or more, true iff the third is a letter when the
second is a dash, and iff the second is a letter otherwise. So `-x` and `--foo` are
valid and the empty string, `-`, `--`, `x`, `123`, `-1`, `--1` are not. -/
theorem is_valid_name_eq_reference :
    (∀ s : Str, is_valid_name s = valid_name_reference s) ∧
    is_valid_name "-x".toList = true ∧ is_valid_name "--foo".toList = true ∧
    is_valid_name "".toList = false ∧ is_valid_name "-".toList = false ∧
    is_valid_name "--".toList = false ∧ is_valid_name "x".toList = false ∧
    is_valid_name "123".toList = false ∧ is_valid_name "-1".toList = false ∧
    is_valid_name "--1".toList = false := by
  refine ⟨?_, by decide, by decide, by decide, by decide, by decide, by decide, by decide,
    by decide, by decide⟩
  intro s
  rcases s with _ | ⟨c0, _ | ⟨c1, _ | ⟨c2, rest⟩⟩⟩
  · simp [is_valid_name, valid_name_reference]
  · simp [is_valid_name, valid_name_reference]
  · by_cases h0 : c0 = '-'
    · simp [is_valid_name, valid_name_reference, isalpha_eq_is_letter, h0]
    · simp [is_valid_name, valid_name_reference, isalpha_eq_is_letter, h0]
  · by_cases h0 : c0 = '-'
    · by_cases h1 : c1 = '-'
      · simp [is_valid_name, valid_name_reference, isalpha_eq_is_letter, h0, h1]
      · simp [is_valid_name, valid_name_reference, isalpha_eq_is_letter, h0, h1]
    · simp [is_valid_name, valid_name_reference, isalpha_eq_is_letter, h0]

/-- C4: duplicate rejection. In every registry state, a single-name `add` of a name
that is already registered returns the null handle, appends exactly one diagnostic and
leaves the name index, the declaration list and every value slot unchanged: the
default-value overload always, and the count overload whenever it returns, which it
does for every count that fits (`n` at most `INT_MAX`). For a larger count the count
overload does not return: building the default value, before `name` is looked at,
throws `std::length_error` or overflows the loop counter. -/
theorem add_registered_rejected (m : ArgumentManager) (name : Str)
    (hreg : find m.mIndices name ≠ none) (dv : Value) (num : Nat) (o : Bool) (h : Str) :
    Rejected m (add m name dv o h) ∧
    (count_fits num = true →
      ∃ r, add_num m name num o h = .returned r ∧ Rejected m r) ∧
    (∀ r, add_num m name num o h = .returned r → Rejected m r) ∧
    (count_fits num = false →
      add_num m name num o h = .length_error ∨ add_num m name num o h = .undefined) := by
  have key : ∀ dv, Rejected m (add m name dv o h) := by
    intro dv
    rcases add_cases m name dv o h with ⟨_, hf, _⟩ | ⟨_, msg, hmsg⟩
    · exact absurd hf hreg
    · rw [hmsg]; exact rejected_push_error m msg
  refine ⟨key dv, fun hfit => ⟨_, add_num_returned m name num o h hfit, key _⟩,
    fun r hr => ?_, add_num_thrown m name num o h⟩
  rw [(add_num_eq_returned hr).2]
  exact key _

/-- The witness of C4: `-x` declared twice on a fresh registry, the second time with
a default value and with the count 1. -/
theorem add_registered_rejected_witness :
    calls (construct [] []) [Call.add_num "-x".toList 1 false []] =
      some (add (construct [] []) "-x".toList (placeholders 1) false []).2 ∧
    find (add (construct [] []) "-x".toList (placeholders 1) false []).2.mIndices
      "-x".toList ≠ none ∧
    count_fits 1 = true ∧
    Rejected (add (construct [] []) "-x".toList (placeholders 1) false []).2
      (add (add (construct [] []) "-x".toList (placeholders 1) false []).2 "-x".toList
        ["7".toList] false []) ∧
    ∃ r, add_num (add (construct [] []) "-x".toList (placeholders 1) false []).2
        "-x".toList 1 false [] = .returned r ∧
      Rejected (add (construct [] []) "-x".toList (placeholders 1) false []).2 r := by
  have hcall := add_registered_rejected
    (add (construct [] []) "-x".toList (placeholders 1) false []).2 "-x".toList (by decide)
    ["7".toList] 1 false []
  exact ⟨by decide, by decide, by decide, hcall.1, hcall.2.1 (by decide)⟩

/-- C5: the two-name `add` is all-or-nothing. In every registry state, when either
name is invalid or either name is already registered, the two-name `add` returns the
null handle, appends exactly one diagnostic and leaves the name index, the declaration
list and the value slots unchanged, so that every name resolves as before the call and
a name that was free stays free: the default-value overload always, and the count
overload whenever it returns, which it does for every count that fits (`n` at most
`INT_MAX`). For a larger count the count overload does not return: building the
default value, before the names are looked at, throws `std::length_error` or overflows
the loop counter. -/
theorem add_alt_all_or_nothing (m : ArgumentManager) (name altname : Str)
    (hfail : is_valid_name name = false ∨ is_valid_name altname = false ∨
      find m.mIndices name ≠ none ∨ find m.mIndices altname ≠ none)
    (dv : Value) (num : Nat) (o : Bool) (h : Str) :
    Rejected m (add_alt m name altname dv o h) ∧
    (count_fits num = true →
      ∃ r, add_alt_num m name altname num o h = .returned r ∧ Rejected m r ∧
        ∀ k, find r.2.mIndices k = find m.mIndices k) ∧
    (∀ r, add_alt_num m name altname num o h = .returned r →
      Rejected m r ∧ ∀ k, find r.2.mIndices k = find m.mIndices k) ∧
    (count_fits num = false →
      add_alt_num m name altname num o h = .length_error ∨
        add_alt_num m name altname num o h = .undefined) ∧
    (∀ k, find (add_alt m name altname dv o h).2.mIndices k = find m.mIndices k) ∧
    (find m.mIndices name = none →
      find (add_alt m name altname dv o h).2.mIndices name = none) ∧
    (find m.mIndices altname = none →
      find (add_alt m name altname dv o h).2.mIndices altname = none) := by
  have key : ∀ dv, Rejected m (add_alt m name altname dv o h) := by
    intro dv
    rcases add_alt_cases m name altname dv o h with ⟨hv, hv2, hf, hf2, _⟩ | ⟨_, msg, hmsg⟩
    · rcases hfail with h1 | h1 | h1 | h1
      · rw [hv] at h1; cases h1
      · rw [hv2] at h1; cases h1
      · exact absurd hf h1
      · exact absurd hf2 h1
    · rw [hmsg]; exact rejected_push_error m msg
  have idx : ∀ dv k, find (add_alt m name altname dv o h).2.mIndices k = find m.mIndices k := by
    intro dv k
    rw [(key dv).2.2.1]
  refine ⟨key dv,
    fun hfit => ⟨_, add_alt_num_returned m name altname num o h hfit, key _, idx _⟩,
    fun r hr => ?_, add_alt_num_thrown m name altname num o h, idx dv, ?_, ?_⟩
  · rw [(add_alt_num_eq_returned hr).2]
    exact ⟨key _, idx _⟩
  · intro hfree; rw [idx dv]; exact hfree
  · intro hfree; rw [idx dv]; exact hfree

/-- The witness of C5: the free name `--new` passed together with the registered
name `-h`, with a default value and with the count 1. -/
theorem add_alt_all_or_nothing_witness :
    (is_valid_name "--new".toList = false ∨ is_valid_name "-h".toList = false ∨
      find (construct [] []).mIndices "--new".toList ≠ none ∨
      find (construct [] []).mIndices "-h".toList ≠ none) ∧
    find (construct [] []).mIndices "--new".toList = none ∧
    count_fits 1 = true ∧
    find (add_alt (construct [] []) "--new".toList "-h".toList ["1".toList] false []).2.mIndices
      "--new".toList = none ∧
    ∃ r, add_alt_num (construct [] []) "--new".toList "-h".toList 1 false [] = .returned r ∧
      Rejected (construct [] []) r ∧
      ∀ k, find r.2.mIndices k = find (construct [] []).mIndices k := by
  have hcall := add_alt_all_or_nothing (construct [] []) "--new".toList "-h".toList
    (by decide) ["1".toList] 1 false []
  exact ⟨by decide, by decide, by decide, hcall.2.2.2.2.2.1 (by decide),
    hcall.2.1 (by decide)⟩

/-- C6: in every well-formed registry state, the single-name
`add(name, defaultValues, ...)` returns a usable handle if and only if `name` is a
valid name that is not registered yet. On success the handle is the position of the
new declaration, no diagnostic is appended, exactly one declaration and one slot are
appended, and `values<text>(name)` is `defaultValues`; on failure exactly one
diagnostic is appended and nothing else changes. -/
theorem add_usable_iff (m : ArgumentManager) (hwf : WF m) (name : Str) (dv : Value)
    (o : Bool) (h : Str) :
    ((add m name dv o h).1 ≠ none ↔
      (is_valid_name name = true ∧ find m.mIndices name = none)) ∧
    ((add m name dv o h).1 ≠ none →
      (add m name dv o h).1 = some m.mArgs.length ∧
      (add m name dv o h).2.mErrorMessages = m.mErrorMessages ∧
      (add m name dv o h).2.mArgs = m.mArgs ++ [Argument.mk name [] o h] ∧
      (add m name dv o h).2.mValues = m.mValues ++ [dv] ∧
      values_text (add m name dv o h).2 name = .ok dv) ∧
    ((add m name dv o h).1 = none → Rejected m (add m name dv o h)) := by
  rcases add_cases m name dv o h with ⟨hv, hf, heq⟩ | ⟨hbad, msg, hmsg⟩
  · rw [heq]
    refine ⟨⟨fun _ => ⟨hv, hf⟩, fun _ => by simp⟩, fun _ => ⟨rfl, rfl, rfl, rfl, ?_⟩,
      fun hnone => by simp at hnone⟩
    have hf' : find (assign m.mIndices name m.mArgs.length) name = some m.mArgs.length := by
      simp [find_assign]
    have hs' : (m.mValues ++ [dv])[m.mArgs.length]? = some dv := by
      simp [hwf.1]
    exact values_text_eq (m := { m with mIndices := _, mArgs := _, mValues := _ }) hf' hs'
  · rw [hmsg]
    refine ⟨⟨fun hne => absurd rfl hne, fun hok => ?_⟩, fun hne => absurd rfl hne,
      fun _ => rejected_push_error m msg⟩
    rcases hbad with hb | hb
    · rw [hok.1] at hb; cases hb
    · exact absurd hok.2 hb

/-- The witness of C6: `--count` declared with the default `["5"]` on a fresh
registry. -/
theorem add_usable_iff_witness :
    WF (construct [] []) ∧
    (add (construct [] []) "--count".toList ["5".toList] false []).1 ≠ none ∧
    values_text (add (construct [] []) "--count".toList ["5".toList] false []).2
      "--count".toList = .ok ["5".toList] := by
  have hwf : WF (construct [] []) := by decide
  have hcall := add_usable_iff (construct [] []) hwf "--count".toList ["5".toList] false []
  have hok : (add (construct [] []) "--count".toList ["5".toList] false []).1 ≠ none :=
    hcall.1.2 ⟨by decide, by decide⟩
  exact ⟨hwf, hok, (hcall.2.1 hok).2.2.2.2⟩

/-- C9 at its failing input: `value<int>` and `values<int>` cannot be instantiated.
Of the seven types that `get_value` names, only `string` gives a well-formed
instantiation, because every branch of the run-time `typeid` chain is compiled and
line 339 assigns a string to `out`. At `T = string` the code does what the claim says:
on a fresh registry the unregistered name `--never-declared` gives the empty text and
the empty sequence, and the registered name `-h` at the index 1, outside its slot of
length 1, gives the empty text. -/
theorem retrieval_int_not_instantiable :
    (∀ T, get_value_instantiable T = true ↔ T = ValueType.string) ∧
    get_value_instantiable ValueType.int = false ∧
    find (construct [] []).mIndices "--never-declared".toList = none ∧
    value_text (construct [] []) "--never-declared".toList 0 = .ok [] ∧
    values_text (construct [] []) "--never-declared".toList = .ok [] ∧
    value_text (construct [] []) "-h".toList 1 = .ok [] := by
  refine ⟨?_, by decide, by decide, by decide, by decide, by decide⟩
  intro T
  cases T <;> decide

/-- The part of C9 that the code keeps, at `T = string`: for an unregistered name,
`value<text>` is the empty text and `values<text>` is the empty sequence; for a
registered name whose slot exists, `value<text>` at an index outside the slot is the
empty text. -/
theorem retrieval_unknown_text (m : ArgumentManager) (name : Str) (id : Nat) :
    (find m.mIndices name = none →
      value_text m name id = .ok [] ∧ values_text m name = .ok []) ∧
    (∀ index slot, find m.mIndices name = some index → m.mValues[index]? = some slot →
      slot.length ≤ id → value_text m name id = .ok []) := by
  refine ⟨fun hf => ?_, fun index slot hf hs hle => ?_⟩
  · simp [value_text, values_text, hf]
  · rw [value_text_eq hf hs, List.getD_eq_getElem?_getD, List.getElem?_eq_none hle]
    rfl

/-- C8: `parse` returns the total length of the accumulated diagnostic sequence: the
number of diagnostics present before the call plus the number recorded by the call.
Diagnostics are append-only: the sequence before a call of `parse` or of one of the
four `add` overloads is a prefix, in the same order, of the sequence after it (for a
count overload: after it, when it returns; a call that throws records nothing). -/
theorem diagnostics_append_only (m : ArgumentManager) (hwf : WF m) (tokens : List Str)
    (hne : tokens ≠ []) :
    (∃ m' recorded, parse m tokens = some (m.mErrorMessages.length + recorded.length, m') ∧
      m'.mErrorMessages = m.mErrorMessages ++ recorded ∧
      m'.mErrorMessages.length = m.mErrorMessages.length + recorded.length) ∧
    (∀ name dv o h, m.mErrorMessages <+: (add m name dv o h).2.mErrorMessages) ∧
    (∀ name num o h r, add_num m name num o h = .returned r →
      m.mErrorMessages <+: r.2.mErrorMessages) ∧
    (∀ name altname dv o h,
      m.mErrorMessages <+: (add_alt m name altname dv o h).2.mErrorMessages) ∧
    (∀ name altname num o h r, add_alt_num m name altname num o h = .returned r →
      m.mErrorMessages <+: r.2.mErrorMessages) := by
  have hadd : ∀ name dv o h, m.mErrorMessages <+: (add m name dv o h).2.mErrorMessages := by
    intro name dv o h
    rcases add_cases m name dv o h with ⟨_, _, heq⟩ | ⟨_, msg, hmsg⟩
    · rw [heq]
    · rw [hmsg]; exact List.prefix_append _ _
  have halt : ∀ name altname dv o h,
      m.mErrorMessages <+: (add_alt m name altname dv o h).2.mErrorMessages := by
    intro name altname dv o h
    rcases add_alt_cases m name altname dv o h with ⟨_, _, _, _, heq⟩ | ⟨_, msg, hmsg⟩
    · rw [heq]
    · rw [hmsg]; exact List.prefix_append _ _
  refine ⟨?_, hadd,
    fun name num o h r hr => by rw [(add_num_eq_returned hr).2]; exact hadd name _ o h,
    halt,
    fun name altname num o h r hr => by
      rw [(add_alt_num_eq_returned hr).2]; exact halt name altname _ o h⟩
  obtain ⟨token0, rest, rfl⟩ := List.exists_cons_of_ne_nil hne
  obtain ⟨m', hm', hst, _⟩ := parse_total m hwf token0 rest
  obtain ⟨recorded, hrec⟩ := hst.errors
  refine ⟨m', recorded, ?_, hrec.symm, ?_⟩
  · rw [hm', ← hrec, List.length_append]
  · rw [← hrec, List.length_append]

/-- The witness of C8: a fresh registry on which the declaration of `-h` was
rejected once, then `parse` of `prog 123`. -/
theorem diagnostics_append_only_witness :
    WF (add (construct [] []) "-h".toList (placeholders 1) false []).2 ∧
    ["prog".toList, "123".toList] ≠ [] ∧
    ∃ m' recorded,
      parse (add (construct [] []) "-h".toList (placeholders 1) false []).2
          ["prog".toList, "123".toList] =
        some ((add (construct [] []) "-h".toList (placeholders 1) false []).2.mErrorMessages.length +
          recorded.length, m') ∧
      m'.mErrorMessages =
        (add (construct [] []) "-h".toList (placeholders 1) false []).2.mErrorMessages ++ recorded ∧
      m'.mErrorMessages.length =
        (add (construct [] []) "-h".toList (placeholders 1) false []).2.mErrorMessages.length +
          recorded.length :=
  ⟨by decide, by decide,
    (diagnostics_append_only (add (construct [] []) "-h".toList (placeholders 1) false []).2 (by decide)
      ["prog".toList, "123".toList] (by decide)).1⟩

/-- C7: idempotent defaults. For every option successfully declared on a well-formed
registry with `add(name, defaults)`, followed by any further declarations, and every
token list in which the option is never matched, `parse` returns and afterwards
`values<text>(name)` is exactly `defaults`; the option is never matched, in particular,
when `name` does not occur among the tokens after the program path. The count form
`add(name, k)`, for a count that fits, is the same declaration with `max(k,1)` copies
of the placeholder `0` as defaults. -/
theorem defaults_kept_when_unmatched (m : ArgumentManager) (hwf : WF m) (name : Str)
    (dv : Value) (o : Bool) (h : Str) (hadd : (add m name dv o h).1 ≠ none)
    (cs : List Call) (hcs : ∀ c ∈ cs, c.is_add = true) (m2 : ArgumentManager)
    (hrun : calls (add m name dv o h).2 cs = some m2)
    (tokens : List Str) (hne : tokens ≠ []) :
    (Unmatched m2 tokens name →
      ∃ r, parse m2 tokens = some r ∧ values_text r.2 name = .ok dv) ∧
    (name ∉ tokens.tail → Unmatched m2 tokens name) ∧
    (∀ k, count_fits k = true →
      add_num m name k o h =
        .returned (add m name (List.replicate (max k 1) "0".toList) o h)) := by
  obtain ⟨token0, rest, rfl⟩ := List.exists_cons_of_ne_nil hne
  refine ⟨?_, ?_, fun k hfit => by rw [add_num_returned m name k o h hfit, placeholders_eq]⟩
  · intro hun
    have hwf1 := add_wf hwf name dv o h
    rcases add_cases m name dv o h with ⟨hv, hf, heq⟩ | ⟨_, msg, hmsg⟩
    · have hm1 : (add m name dv o h).2 = _ := congrArg Prod.snd heq
      have hf1 : find (add m name dv o h).2.mIndices name = some m.mArgs.length := by
        rw [hm1]; simp [find_assign]
      have hs1 : (add m name dv o h).2.mValues[m.mArgs.length]? = some dv := by
        rw [hm1]; simp [hwf.1]
      have hlt1 : m.mArgs.length < (add m name dv o h).2.mArgs.length := by
        rw [hm1]; simp
      have honly1 : ∀ k, find (add m name dv o h).2.mIndices k = some m.mArgs.length →
          k = name := by
        intro k hk
        rw [hm1] at hk
        simp only [find_assign] at hk
        by_cases e : k = name
        · exact e
        · rw [if_neg e] at hk
          exact absurd hk (wf_find_fresh hwf k)
      obtain ⟨hwf2, hk2, _⟩ := calls_keep cs hwf1 hrun
      obtain ⟨_, hs2, hb2⟩ := add_calls_keep cs hcs hrun
      obtain ⟨m', hm', hst, hloop⟩ := parse_total m2 hwf2 token0 rest
      refine ⟨_, hm', ?_⟩
      have hfind : find m'.mIndices name = some m.mArgs.length := by
        rw [hst.indices]; exact hk2 _ _ hf1
      have hslot : m'.mValues[m.mArgs.length]? = some dv := by
        rw [parse_loop_other _ m.mArgs.length _ _ _ _ hloop]
        · exact hs2 _ _ hs1
        · intro c hc hfc
          exact hun c hc (honly1 _ (hb2 _ _ hlt1 hfc))
      exact values_text_eq hfind hslot
    · rw [hmsg] at hadd; exact absurd rfl hadd
  · intro hnot c hc hceq
    have hb := cursors_bounds _ _ _ _ c hc
    apply hnot
    rw [← hceq]
    obtain ⟨c', rfl⟩ : ∃ c', c = c' + 1 := ⟨c - 1, by omega⟩
    simp only [List.tail_cons, List.getD_cons_succ]
    rw [List.getD_eq_getElem?_getD, List.getElem?_eq_getElem (by simpa using hb.2)]
    exact List.getElem_mem _

/-- The witness of C7: `--level` declared with the defaults `["3", "4"]` on a fresh
registry, then `-x` declared, then `parse` of `prog -x 1`, in which `--level` does not
occur. -/
theorem defaults_kept_when_unmatched_witness :
    WF (construct [] []) ∧
    (add (construct [] []) "--level".toList ["3".toList, "4".toList] false []).1 ≠ none ∧
    (∀ c ∈ [Call.add_num "-x".toList 1 false []], c.is_add = true) ∧
    calls (add (construct [] []) "--level".toList ["3".toList, "4".toList] false []).2
        [Call.add_num "-x".toList 1 false []] =
      some (add (add (construct [] []) "--level".toList ["3".toList, "4".toList]
        false []).2 "-x".toList (placeholders 1) false []).2 ∧
    ["prog".toList, "-x".toList, "1".toList] ≠ [] ∧
    "--level".toList ∉ (["prog".toList, "-x".toList, "1".toList] : List Str).tail ∧
    ∃ r, parse (add (add (construct [] []) "--level".toList ["3".toList, "4".toList]
          false []).2 "-x".toList (placeholders 1) false []).2
        ["prog".toList, "-x".toList, "1".toList] = some r ∧
      values_text r.2 "--level".toList = .ok ["3".toList, "4".toList] := by
  have hadds : ∀ c ∈ [Call.add_num "-x".toList 1 false []], c.is_add = true := by
    intro c hc
    simp only [List.mem_singleton] at hc
    rw [hc]; rfl
  have hcall := defaults_kept_when_unmatched (construct [] []) (by decide) "--level".toList
    ["3".toList, "4".toList] false [] (by decide) [Call.add_num "-x".toList 1 false []]
    hadds _ rfl ["prog".toList, "-x".toList, "1".toList] (by decide)
  exact ⟨by decide, by decide, hadds, rfl, by decide, by decide,
    hcall.1 (hcall.2.1 (by decide))⟩

theorem foldl_push_error (d : Str) (g : ArgumentManager → Nat → ArgumentManager)
    (js : List Nat) (hg : ∀ m j, j ∈ js → g m j = push_error m d) :
    ∀ m : ArgumentManager,
      js.foldl g m = { m with mErrorMessages := m.mErrorMessages ++ List.replicate js.length d } := by
  induction js with
  | nil => intro m; simp
  | cons j rest ih =>
    intro m
    rw [List.foldl_cons, hg m j (List.mem_cons_self _ _),
      ih (fun m' j' hj' => hg m' j' (List.mem_cons_of_mem _ hj'))]
    simp [push_error, List.replicate_succ]

theorem value_text_defined {m : ArgumentManager} (hwf : WF m) (name : Str) (i : Nat) :
    value_text m name i ≠ Retrieved.undefined := by
  cases hf : find m.mIndices name with
  | none => simp [value_text, hf]
  | some index =>
    have hlt := (wf_find_lt hwf hf).1
    rw [value_text_eq hf (List.getElem?_eq_getElem hlt)]
    intro h; cases h

theorem values_text_defined {m : ArgumentManager} (hwf : WF m) (name : Str) :
    values_text m name ≠ Retrieved.undefined := by
  cases hf : find m.mIndices name with
  | none => simp [values_text, hf]
  | some index =>
    have hlt := (wf_find_lt hwf hf).1
    rw [values_text_eq hf (List.getElem?_eq_getElem hlt)]
    intro h; cases h

/-- C12: the built-in help option. A freshly constructed registry has an empty
diagnostic sequence; exactly the names `-h` and `--help` are registered, both bound
to the slot 0, which is the only slot, has length 1 and holds the placeholder `0`;
the only declaration is that of `-h`, `--help`, and it is marked optional. -/
theorem construct_help_option (p d : Str) :
    (construct p d).mErrorMessages = [] ∧
    (∀ k, find (construct p d).mIndices k ≠ none ↔ (k = "-h".toList ∨ k = "--help".toList)) ∧
    find (construct p d).mIndices "-h".toList = some 0 ∧
    find (construct p d).mIndices "--help".toList = some 0 ∧
    (construct p d).mValues = [["0".toList]] ∧
    values_text (construct p d) "-h".toList = .ok ["0".toList] ∧
    values_text (construct p d) "--help".toList = .ok ["0".toList] ∧
    (construct p d).mArgs =
      [Argument.mk "-h".toList "--help".toList true "output the program's usage".toList] ∧
    (∀ arg ∈ (construct p d).mArgs, arg.mOptional = true) := by
  have h0 : find (construct p d).mIndices "-h".toList = some 0 := by
    rw [construct_eq]; rfl
  have h1 : find (construct p d).mIndices "--help".toList = some 0 := by
    rw [construct_eq]; rfl
  have hs : (construct p d).mValues[0]? = some ["0".toList] := by
    rw [construct_eq]; rfl
  refine ⟨by rw [construct_eq], ?_, h0, h1, by rw [construct_eq], values_text_eq h0 hs,
    values_text_eq h1 hs, by rw [construct_eq], ?_⟩
  · intro k
    rw [construct_eq]
    simp only [find]
    constructor
    · intro hk
      by_contra hn
      push_neg at hn
      apply hk
      rw [if_neg (Ne.symm hn.1), if_neg (Ne.symm hn.2)]
    · rintro (rfl | rfl) <;> decide
  · intro arg harg
    rw [construct_eq] at harg
    simp only [List.mem_singleton] at harg
    rw [harg]

/-- C15: `parse` preserves the declarations. On every well-formed registry and every
token list with at least one token, `parse` returns, and afterwards the name index,
the declaration list, the program name and the description are unchanged, there are
as many slots as before, and every slot has the length it had. -/
theorem parse_keeps_declarations (m : ArgumentManager) (hwf : WF m) (tokens : List Str)
    (hne : tokens ≠ []) :
    ∃ r, parse m tokens = some r ∧
      r.2.mIndices = m.mIndices ∧ r.2.mArgs = m.mArgs ∧
      r.2.mProgramName = m.mProgramName ∧ r.2.mDescription = m.mDescription ∧
      r.2.mValues.length = m.mValues.length ∧
      r.2.mValues.map List.length = m.mValues.map List.length ∧
      (∀ (id : Nat) (slot : Value), m.mValues[id]? = some slot →
        ∃ slot', r.2.mValues[id]? = some slot' ∧ slot'.length = slot.length) := by
  obtain ⟨token0, rest, rfl⟩ := List.exists_cons_of_ne_nil hne
  obtain ⟨m', hm', hst, _⟩ := parse_total m hwf token0 rest
  exact ⟨_, hm', hst.indices, hst.args, hst.programName, hst.description, hst.length_values,
    hst.sizes, fun id slot hs => hst.slot hs⟩

/-- The witness of C15: `prog -h me` parsed on a fresh registry. -/
theorem parse_keeps_declarations_witness :
    WF (construct [] []) ∧ ["prog".toList, "-h".toList, "me".toList] ≠ [] ∧
    ∃ r, parse (construct [] []) ["prog".toList, "-h".toList, "me".toList] = some r ∧
      r.2.mIndices = (construct [] []).mIndices ∧ r.2.mArgs = (construct [] []).mArgs ∧
      r.2.mProgramName = (construct [] []).mProgramName ∧
      r.2.mDescription = (construct [] []).mDescription ∧
      r.2.mValues.length = (construct [] []).mValues.length ∧
      r.2.mValues.map List.length = (construct [] []).mValues.map List.length ∧
      (∀ (id : Nat) (slot : Value), (construct [] []).mValues[id]? = some slot →
        ∃ slot', r.2.mValues[id]? = some slot' ∧ slot'.length = slot.length) :=
  ⟨by decide, by decide,
    parse_keeps_declarations (construct [] []) (by decide)
      ["prog".toList, "-h".toList, "me".toList] (by decide)⟩

/-- C18: the well-formedness invariant. In every state reached from the constructor
by `add` (all four overloads) and `parse` calls that return (a call that throws leaves
the registry as it was), the declaration list and the slot list have the same length,
every binding of the name index holds a valid name and an index smaller than that
length; hence after a successful name lookup the slot exists, the retrievals `value`
and `values` never read outside `mValues`, and `parse` of a token list with at least
one token returns. -/
theorem reachable_well_formed (p d : Str) (cs : List Call) (m : ArgumentManager)
    (hrun : calls (construct p d) cs = some m) :
    m.mArgs.length = m.mValues.length ∧
    (∀ q ∈ m.mIndices, q.2 < m.mValues.length ∧ is_valid_name q.1 = true) ∧
    (∀ name index, find m.mIndices name = some index →
      index < m.mValues.length ∧ is_valid_name name = true ∧
        ∃ slot, m.mValues[index]? = some slot) ∧
    (∀ name i, value_text m name i ≠ .undefined) ∧
    (∀ name, values_text m name ≠ .undefined) ∧
    (∀ tokens, tokens ≠ [] → ∃ r, parse m tokens = some r) := by
  have hwf : WF m := reachable_wf p d cs hrun
  refine ⟨hwf.1, hwf.2, fun name index hf => ?_, fun name i => ?_, fun name => ?_,
    fun tokens hne => ?_⟩
  · have h := wf_find_lt hwf hf
    exact ⟨h.1, h.2, _, List.getElem?_eq_getElem h.1⟩
  · exact value_text_defined hwf name i
  · exact values_text_defined hwf name
  · obtain ⟨token0, rest, rfl⟩ := List.exists_cons_of_ne_nil hne
    obtain ⟨m', hm', _, _⟩ := parse_total m hwf token0 rest
    exact ⟨_, hm'⟩

/-- The witness of C18: a fresh registry, `--size` declared with two values, `-h`
declared again (rejected), then `prog --size 1` parsed. -/
theorem reachable_well_formed_witness :
    ∃ m, calls (construct [] [])
        [Call.add "--size".toList ["1".toList, "2".toList] false [],
          Call.add_num "-h".toList 1 false [],
          Call.parse ["prog".toList, "--size".toList, "1".toList]] = some m ∧
      m.mArgs.length = m.mValues.length ∧
      (∀ q ∈ m.mIndices, q.2 < m.mValues.length ∧ is_valid_name q.1 = true) ∧
      (∀ tokens, tokens ≠ [] → ∃ r, parse m tokens = some r) := by
  obtain ⟨m, hm⟩ := calls_defined
    [Call.add "--size".toList ["1".toList, "2".toList] false [],
      Call.add_num "-h".toList 1 false [],
      Call.parse ["prog".toList, "--size".toList, "1".toList]]
    (construct_wf [] []) (by decide)
  have h := reachable_well_formed [] [] _ m hm
  exact ⟨m, hm, h.1, h.2.1, h.2.2.2.2.2⟩

theorem dash_digit_not_name (c : Char) (rest : Str) (hc : c.isDigit = true) :
    is_valid_name ('-' :: c :: rest) = false := by
  have hb := isDigit_bounds hc
  have hne : c ≠ '-' := isDigit_not_dash hc
  have hal : isalpha c = false := by
    rw [isalpha_eq_is_letter]
    unfold is_letter
    have h1 : ¬ 'a' ≤ c := by
      rw [Char.le_def, UInt32.le_def]
      show ¬ 97 ≤ c.toNat
      omega
    have h2 : ¬ c ≤ 'Z' ∨ ¬ 'A' ≤ c := by
      right
      rw [Char.le_def, UInt32.le_def]
      show ¬ 65 ≤ c.toNat
      omega
    rcases h2 with h2 | h2 <;> simp [h1, h2]
  cases rest with
  | nil => simp [is_valid_name, hal]
  | cons c2 rest2 => simp [is_valid_name, hal, hne]

/-- The parse of one registered option of arity 1 followed by a name-shaped token. -/
theorem parse_single_missing (m : ArgumentManager) (hwf : WF m) (prog name v : Str) (id : Nat)
    (s0 : Str) (hf : find m.mIndices name = some id) (hs : m.mValues[id]? = some [s0])
    (hv : is_valid_name v = true) :
    parse m [prog, name, v] = some (m.mErrorMessages.length + 1,
      { m with
        mBinName := bin_name prog
        mErrorMessages := m.mErrorMessages ++ [less_values name] }) := by
  have hname := (wf_find_lt hwf hf).2
  simp [parse, parse_loop, parse_step, parse_values, parse_value, hf, hs, hv, hname,
    List.range_succ, push_error, less_values]

/-- C17, as the code has it: a token made of a dash followed by decimal digits is not
name-shaped, so when it follows a matched option of arity 1, `parse` stores it in the
slot and records no diagnostic. A value is rejected with `<name> has less values than
expected`, the slot keeping its previous value, exactly when it is name-shaped (one or
two dashes followed by a letter); every other value is stored. -/
theorem negative_number_stored (m : ArgumentManager) (hwf : WF m) (prog name : Str)
    (index : Nat) (s0 : Str) (hf : find m.mIndices name = some index)
    (hs : m.mValues[index]? = some [s0]) (ds : Str) (hne : ds ≠ [])
    (hds : ∀ c ∈ ds, c.isDigit = true) :
    is_valid_name ('-' :: ds) = false ∧
    (∃ m', parse m [prog, name, '-' :: ds] = some (m.mErrorMessages.length, m') ∧
      m'.mErrorMessages = m.mErrorMessages ∧ value_text m' name 0 = .ok ('-' :: ds)) ∧
    (∀ v, is_valid_name v = true →
      ∃ m', parse m [prog, name, v] = some (m.mErrorMessages.length + 1, m') ∧
        m'.mErrorMessages = m.mErrorMessages ++ [less_values name] ∧
        m'.mValues = m.mValues ∧ value_text m' name 0 = .ok s0) ∧
    (∀ v, is_valid_name v = false →
      ∃ m', parse m [prog, name, v] = some (m.mErrorMessages.length, m') ∧
        m'.mErrorMessages = m.mErrorMessages ∧ value_text m' name 0 = .ok v) := by
  have hnot : is_valid_name ('-' :: ds) = false := by
    cases ds with
    | nil => exact absurd rfl hne
    | cons c rest => exact dash_digit_not_name c rest (hds c (List.mem_cons_self _ _))
  have stored : ∀ v, is_valid_name v = false →
      ∃ m', parse m [prog, name, v] = some (m.mErrorMessages.length, m') ∧
        m'.mErrorMessages = m.mErrorMessages ∧ value_text m' name 0 = .ok v := by
    intro v hv
    obtain ⟨m', hparse, hidx, herr, hslot, _⟩ :=
      parse_single_value m hwf prog name v index s0 hf hs hv
    have hf' : find m'.mIndices name = some index := by rw [hidx]; exact hf
    exact ⟨m', hparse, herr, value_text_eq hf' hslot 0⟩
  refine ⟨hnot, stored _ hnot, ?_, stored⟩
  · intro v hv
    refine ⟨_, parse_single_missing m hwf prog name v index s0 hf hs hv, rfl, rfl, ?_⟩
    exact value_text_eq (m := { m with mBinName := _, mErrorMessages := _ }) hf hs 0

/-- The witness of C17 as amended: `--count` declared with arity 1 on a fresh
registry, and the value `-5`. -/
theorem negative_number_stored_witness :
    WF (add (construct [] []) "--count".toList (placeholders 1) false []).2 ∧
    find (add (construct [] []) "--count".toList (placeholders 1) false []).2.mIndices
      "--count".toList = some 1 ∧
    (add (construct [] []) "--count".toList (placeholders 1) false []).2.mValues[1]? =
      some ["0".toList] ∧
    "5".toList ≠ [] ∧ (∀ c ∈ "5".toList, c.isDigit = true) ∧
    ∃ m', parse (add (construct [] []) "--count".toList (placeholders 1) false []).2
        ["prog".toList, "--count".toList, '-' :: "5".toList] =
        some ((add (construct [] []) "--count".toList (placeholders 1) false []).2.mErrorMessages.length,
          m') ∧
      m'.mErrorMessages = (add (construct [] []) "--count".toList (placeholders 1) false []).2.mErrorMessages ∧
      value_text m' "--count".toList 0 = .ok ('-' :: "5".toList) :=
  ⟨by decide, by decide, by decide, by decide, by decide,
    (negative_number_stored _ (by decide) "prog".toList "--count".toList 1 "0".toList
      (by decide) (by decide) "5".toList (by decide) (by decide)).2.1⟩

/-- C17 as stated fails: with `--count` declared by `add("--count", 1)` on a fresh
registry, `parse` of `prog --count -5` records no diagnostic and stores `-5`; the
token `-5` is not name-shaped. -/
theorem negative_number_counterexample :
    is_valid_name "-5".toList = false ∧
    calls (construct [] []) [Call.add_num "--count".toList 1 false []] =
      some (add (construct [] []) "--count".toList (placeholders 1) false []).2 ∧
    (parse (add (construct [] []) "--count".toList (placeholders 1) false []).2
      ["prog".toList, "--count".toList, "-5".toList]).map
      (fun r => (r.1, r.2.mErrorMessages, value_text r.2 "--count".toList 0)) =
    some (0, [], .ok "-5".toList) := by
  decide

/-- C19: a bare flag with no following value is reported. On every well-formed
registry, for every registered name `a` whose slot has length `k >= 1`, `parse` of
`[prog, a]` appends exactly `k` diagnostics `a has less values than expected`, changes
no slot and returns a count greater than 0; `parse` of `prog -h` on a freshly
constructed registry returns 1. -/
theorem bare_flag_reported (m : ArgumentManager) (hwf : WF m) (prog a : Str) (index : Nat)
    (slot : Value) (hf : find m.mIndices a = some index) (hs : m.mValues[index]? = some slot)
    (hk : 1 ≤ slot.length) :
    (∃ m', parse m [prog, a] = some (m.mErrorMessages.length + slot.length, m') ∧
      m'.mErrorMessages = m.mErrorMessages ++ List.replicate slot.length (less_values a) ∧
      m'.mValues = m.mValues ∧ m'.mIndices = m.mIndices ∧
      0 < m.mErrorMessages.length + slot.length) ∧
    (parse (construct [] []) ["prog".toList, "-h".toList]).map Prod.fst = some 1 := by
  refine ⟨?_, by decide⟩
  have hname := (wf_find_lt hwf hf).2
  have hfold : parse_values [prog, a] 1 index slot.length { m with mBinName := bin_name prog } =
      { m with
        mBinName := bin_name prog
        mErrorMessages := m.mErrorMessages ++ List.replicate slot.length (less_values a) } := by
    unfold parse_values
    rw [foldl_push_error (less_values a)]
    · simp
    · intro m' j _
      simp [parse_value, less_values]
  have hstep : parse_step [prog, a] 1 { m with mBinName := bin_name prog } =
      some (1 + (slot.length + 1),
        { m with
          mBinName := bin_name prog
          mErrorMessages := m.mErrorMessages ++ List.replicate slot.length (less_values a) }) := by
    simp only [parse_step, List.getD_cons_succ, List.getD_cons_zero, hname, hf, hs,
      Bool.not_true, Bool.false_eq_true, if_false]
    rw [hfold]
  refine ⟨{ m with
      mBinName := bin_name prog
      mErrorMessages := m.mErrorMessages ++ List.replicate slot.length (less_values a) },
    ?_, rfl, rfl, rfl, by omega⟩
  have hnot : ¬ (1 + (slot.length + 1) < 2) := by omega
  simp only [parse, parse_loop, List.length_cons, List.length_nil, hstep, hnot, if_false]
  simp

/-- The witness of C19: `--pair` declared with two values on a fresh registry, parsed
bare. -/
theorem bare_flag_reported_witness :
    WF (add (construct [] []) "--pair".toList (placeholders 2) false []).2 ∧
    find (add (construct [] []) "--pair".toList (placeholders 2) false []).2.mIndices
      "--pair".toList = some 1 ∧
    (add (construct [] []) "--pair".toList (placeholders 2) false []).2.mValues[1]? =
      some ["0".toList, "0".toList] ∧
    1 ≤ (["0".toList, "0".toList] : Value).length ∧
    ∃ m', parse (add (construct [] []) "--pair".toList (placeholders 2) false []).2
        ["prog".toList, "--pair".toList] =
        some ((add (construct [] []) "--pair".toList (placeholders 2) false []).2.mErrorMessages.length +
          (["0".toList, "0".toList] : Value).length, m') ∧
      m'.mErrorMessages =
        (add (construct [] []) "--pair".toList (placeholders 2) false []).2.mErrorMessages ++
          List.replicate (["0".toList, "0".toList] : Value).length
            (less_values "--pair".toList) ∧
      m'.mValues = (add (construct [] []) "--pair".toList (placeholders 2) false []).2.mValues ∧
      m'.mIndices = (add (construct [] []) "--pair".toList (placeholders 2) false []).2.mIndices ∧
      0 < (add (construct [] []) "--pair".toList (placeholders 2) false []).2.mErrorMessages.length +
        (["0".toList, "0".toList] : Value).length :=
  ⟨by decide, by decide, by decide, by decide,
    (bare_flag_reported _ (by decide) "prog".toList "--pair".toList 1
      ["0".toList, "0".toList] (by decide) (by decide) (by decide)).1⟩

/-- C20: last occurrence wins. On every well-formed registry, for every option of
arity 1 registered under the spellings `a` and `a'` (the same or not) and every two
tokens `v1`, `v2` that are not name-shaped, `parse` of `[prog, a, v1, a', v2]` records
no new diagnostic and leaves `value<text>(a) = value<text>(a') = v2`. -/
theorem last_occurrence_wins (m : ArgumentManager) (hwf : WF m) (prog a a' v1 v2 : Str)
    (index : Nat) (s0 : Str) (hf : find m.mIndices a = some index)
    (hf' : find m.mIndices a' = some index) (hs : m.mValues[index]? = some [s0])
    (hv1 : is_valid_name v1 = false) (hv2 : is_valid_name v2 = false) :
    ∃ m', parse m [prog, a, v1, a', v2] = some (m.mErrorMessages.length, m') ∧
      m'.mErrorMessages = m.mErrorMessages ∧
      value_text m' a 0 = .ok v2 ∧ value_text m' a' 0 = .ok v2 ∧
      values_text m' a = .ok [v2] := by
  have hname := (wf_find_lt hwf hf).2
  have hname' := (wf_find_lt hwf hf').2
  have hs1 := modify_set_single hs v1
  have hs2 := modify_set_single hs1 v2
  have key : ∀ m' : ArgumentManager, m'.mIndices = m.mIndices →
      m'.mValues = List.modify (fun slot => slot.set 0 v2) index
        (List.modify (fun slot => slot.set 0 v1) index m.mValues) →
      value_text m' a 0 = .ok v2 ∧ value_text m' a' 0 = .ok v2 ∧
        values_text m' a = .ok [v2] := by
    intro m' hidx hval
    rw [← hidx] at hf hf'
    rw [← hval] at hs2
    exact ⟨value_text_eq hf hs2 0, value_text_eq hf' hs2 0, values_text_eq hf hs2⟩
  refine ⟨{ m with
      mBinName := bin_name prog
      mValues := List.modify (fun slot => slot.set 0 v2) index
        (List.modify (fun slot => slot.set 0 v1) index m.mValues) },
    ?_, rfl, key _ rfl rfl⟩
  simp [parse, parse_loop, parse_step, parse_values, parse_value, hf, hf', hs, hs1, hv1,
    hv2, hname, hname', List.range_succ]

/-- The witness of C20: `-o`, `--output` declared with arity 1 on a fresh registry,
and the tokens `prog -o first --output second`. -/
theorem last_occurrence_wins_witness :
    WF (add_alt (construct [] []) "-o".toList "--output".toList (placeholders 1) false []).2 ∧
    find (add_alt (construct [] []) "-o".toList "--output".toList (placeholders 1) false []).2.mIndices
      "-o".toList = some 1 ∧
    find (add_alt (construct [] []) "-o".toList "--output".toList (placeholders 1) false []).2.mIndices
      "--output".toList = some 1 ∧
    (add_alt (construct [] []) "-o".toList "--output".toList (placeholders 1) false []).2.mValues[1]? =
      some ["0".toList] ∧
    is_valid_name "first".toList = false ∧ is_valid_name "second".toList = false ∧
    ∃ m', parse (add_alt (construct [] []) "-o".toList "--output".toList (placeholders 1) false []).2
        ["prog".toList, "-o".toList, "first".toList, "--output".toList, "second".toList] =
        some ((add_alt (construct [] []) "-o".toList "--output".toList (placeholders 1)
          false []).2.mErrorMessages.length, m') ∧
      m'.mErrorMessages =
        (add_alt (construct [] []) "-o".toList "--output".toList (placeholders 1)
          false []).2.mErrorMessages ∧
      value_text m' "-o".toList 0 = .ok "second".toList ∧
      value_text m' "--output".toList 0 = .ok "second".toList ∧
      values_text m' "-o".toList = .ok ["second".toList] :=
  ⟨by decide, by decide, by decide, by decide, by decide, by decide,
    last_occurrence_wins _ (by decide) "prog".toList "-o".toList "--output".toList
      "first".toList "second".toList 1 "0".toList (by decide) (by decide) (by decide)
      (by decide) (by decide)⟩

theorem placeholders_length (k : Nat) : 1 ≤ (placeholders k).length := by
  rw [placeholders_eq, List.length_replicate]
  exact Nat.le_max_right _ _

theorem add_slots_nonempty (m : ArgumentManager) (name : Str) (dv : Value) (o : Bool)
    (h : Str) (hdv : 1 ≤ dv.length) (hm : ∀ slot ∈ m.mValues, 1 ≤ slot.length) :
    ∀ slot ∈ (add m name dv o h).2.mValues, 1 ≤ slot.length := by
  rcases add_cases m name dv o h with ⟨_, _, heq⟩ | ⟨_, msg, hmsg⟩
  · rw [heq]
    intro slot hslot
    rcases List.mem_append.mp hslot with h1 | h1
    · exact hm slot h1
    · simp only [List.mem_singleton] at h1
      rw [h1]; exact hdv
  · rw [hmsg]; exact hm

theorem add_alt_slots_nonempty (m : ArgumentManager) (name altname : Str) (dv : Value)
    (o : Bool) (h : Str) (hdv : 1 ≤ dv.length) (hm : ∀ slot ∈ m.mValues, 1 ≤ slot.length) :
    ∀ slot ∈ (add_alt m name altname dv o h).2.mValues, 1 ≤ slot.length := by
  rcases add_alt_cases m name altname dv o h with ⟨_, _, _, _, heq⟩ | ⟨_, msg, hmsg⟩
  · rw [heq]
    intro slot hslot
    rcases List.mem_append.mp hslot with h1 | h1
    · exact hm slot h1
    · simp only [List.mem_singleton] at h1
      rw [h1]; exact hdv
  · rw [hmsg]; exact hm

theorem Stable.keeps_nonempty {m m' : ArgumentManager} (hst : Stable m m')
    (hm : ∀ slot ∈ m.mValues, 1 ≤ slot.length) : ∀ slot ∈ m'.mValues, 1 ≤ slot.length := by
  intro slot hslot
  have h1 : slot.length ∈ m'.mValues.map List.length := List.mem_map_of_mem _ hslot
  rw [hst.sizes] at h1
  obtain ⟨slot0, h0, hlen⟩ := List.mem_map.mp h1
  rw [← hlen]
  exact hm slot0 h0

theorem has_default_length {dv : Value} (h : (!dv.isEmpty) = true) : 1 ≤ dv.length := by
  cases dv with
  | nil => simp at h
  | cons x rest => simp

/-- Arity at least 1, for the declarations that keep it: in every state reached from
the constructor by `parse` calls and `add` calls of which none passes an empty
sequence of default values, every slot has length at least 1. -/
theorem slots_nonempty (p d : Str) (cs : List Call) (hcs : ∀ c ∈ cs, c.has_default = true)
    (m : ArgumentManager) (hrun : calls (construct p d) cs = some m) :
    ∀ slot ∈ m.mValues, 1 ≤ slot.length := by
  have base : ∀ slot ∈ (construct p d).mValues, 1 ≤ slot.length := by
    rw [construct_eq]
    intro slot hslot
    simp only [List.mem_singleton] at hslot
    rw [hslot]; decide
  have step : ∀ (cs : List Call) (m0 m1 : ArgumentManager),
      (∀ c ∈ cs, c.has_default = true) → (∀ slot ∈ m0.mValues, 1 ≤ slot.length) →
      calls m0 cs = some m1 → ∀ slot ∈ m1.mValues, 1 ≤ slot.length := by
    intro cs
    induction cs with
    | nil =>
      intro m0 m1 _ h0 hr
      simp only [calls, Option.some.injEq] at hr
      rw [← hr]; exact h0
    | cons c rest ih =>
      intro m0 m1 hall h0 hr
      simp only [calls] at hr
      cases hc : call m0 c with
      | none => rw [hc] at hr; cases hr
      | some m' =>
        rw [hc] at hr
        refine ih m' m1 (fun c' hc' => hall c' (List.mem_cons_of_mem _ hc')) ?_ hr
        have hd := hall c (List.mem_cons_self _ _)
        cases c with
        | add name dv o h =>
          simp only [call, Option.some.injEq] at hc
          rw [← hc]
          exact add_slots_nonempty m0 name dv o h (has_default_length hd) h0
        | add_num name num o h =>
          rw [(call_add_num hc).2]
          exact add_slots_nonempty m0 name _ o h (placeholders_length num) h0
        | add_alt name altname dv o h =>
          simp only [call, Option.some.injEq] at hc
          rw [← hc]
          exact add_alt_slots_nonempty m0 name altname dv o h (has_default_length hd) h0
        | add_alt_num name altname num o h =>
          rw [(call_add_alt_num hc).2]
          exact add_alt_slots_nonempty m0 name altname _ o h (placeholders_length num) h0
        | parse tokens =>
          simp only [call] at hc
          cases hp : parse m0 tokens with
          | none => rw [hp] at hc; cases hc
          | some r =>
            rw [hp] at hc
            simp only [Option.map_some', Option.some.injEq] at hc
            rw [← hc]
            exact (parse_stable hp).1.keeps_nonempty h0
  exact step cs _ m hcs base hrun

/-- C16 at its failing input: on a fresh registry `add("-x", {})`, with an empty
sequence of default values, succeeds and creates a slot of length 0, where
`add("-x", 0)` creates a slot of length 1; the option `-x` is then matched by `parse`
of `prog -x -h` without consuming a value position and without a diagnostic for it
(the token after it, `-h`, is examined as the next option name). -/
theorem add_empty_default_slot :
    (add (construct [] []) "-x".toList [] false []).1 = some 1 ∧
    (add (construct [] []) "-x".toList [] false []).2.mValues = [["0".toList], []] ∧
    (add (construct [] []) "-x".toList [] false []).2.mErrorMessages = [] ∧
    values_text (add (construct [] []) "-x".toList [] false []).2 "-x".toList = .ok [] ∧
    add_num (construct [] []) "-x".toList 0 false [] =
      .returned (add (construct [] []) "-x".toList (placeholders 0) false []) ∧
    (add (construct [] []) "-x".toList (placeholders 0) false []).2.mValues =
      [["0".toList], ["0".toList]] ∧
    calls (construct [] []) [Call.add "-x".toList [] false []] =
      some (add (construct [] []) "-x".toList [] false []).2 ∧
    (parse (add (construct [] []) "-x".toList [] false []).2
      ["prog".toList, "-x".toList, "-h".toList]).map
      (fun r => (r.1, r.2.mErrorMessages)) =
    some (1, ["-h has less values than expected".toList]) ∧
    parse_cursors (add (construct [] []) "-x".toList [] false []).2
      ["prog".toList, "-x".toList, "-h".toList] = [1, 2] := by
  decide

theorem usage_entries_eq (keep : Argument → Bool) (args : List Argument) :
    ∀ u : Str, usage_entries keep args u =
      u ++ ((args.filter keep).map usage_line).flatten := by
  induction args with
  | nil => intro u; simp [usage_entries]
  | cons arg rest ih =>
    intro u
    have hstep : usage_entries keep (arg :: rest) u =
        usage_entries keep rest (if keep arg then u ++ (" ".toList ++ arg.to_string) else u) := by
      simp [usage_entries]
    rw [hstep, ih]
    by_cases hk : keep arg = true
    · simp [hk, List.filter_cons, usage_line]
    · simp [hk, List.filter_cons]

theorem flatten_lines_split {l : List Argument} {a : Argument} (ha : a ∈ l) :
    ∃ s t, (l.map usage_line).flatten = s ++ usage_line a ++ t := by
  obtain ⟨s, t, rfl⟩ := List.append_of_mem ha
  exact ⟨(s.map usage_line).flatten, (t.map usage_line).flatten, by simp⟩

/-- C11: usage grouping. For every registry state, the string returned by `usage` is
the header and the invocation line, then `Required options:` followed by the entry
lines of the non-optional declarations in declaration order, then `Optional options:`
followed by the entry lines of the optional declarations in declaration order. The
two groups together hold every declaration exactly once (they are a permutation of
the declaration list), a non-optional one in the first group only and an optional
one in the second group only; so the entry line of every non-optional declaration
stands before `Optional options:` and the entry line of every optional one after
it. -/
theorem usage_grouping (m : ArgumentManager) :
    usage m =
      usage_header m ++ ("usage : ".toList ++ m.mBinName ++ " [Options]\n".toList) ++
        "Required options:\n".toList ++
        ((m.mArgs.filter (fun arg => !arg.mOptional)).map usage_line).flatten ++
        "Optional options:\n".toList ++
        ((m.mArgs.filter (fun arg => arg.mOptional)).map usage_line).flatten ∧
    (m.mArgs.filter (fun arg => !arg.mOptional) ++
      m.mArgs.filter (fun arg => arg.mOptional)).Perm m.mArgs ∧
    (∀ arg, arg ∈ m.mArgs.filter (fun arg => !arg.mOptional) ↔
      (arg ∈ m.mArgs ∧ arg.mOptional = false)) ∧
    (∀ arg, arg ∈ m.mArgs.filter (fun arg => arg.mOptional) ↔
      (arg ∈ m.mArgs ∧ arg.mOptional = true)) ∧
    (∀ a b, a ∈ m.mArgs → b ∈ m.mArgs → a.mOptional = false → b.mOptional = true →
      ∃ x y z w,
        usage m =
          (usage_header m ++ ("usage : ".toList ++ m.mBinName ++ " [Options]\n".toList) ++
            "Required options:\n".toList ++ x) ++ usage_line a ++
          (y ++ "Optional options:\n".toList ++ z) ++ usage_line b ++ w) := by
  have heq : usage m =
      usage_header m ++ ("usage : ".toList ++ m.mBinName ++ " [Options]\n".toList) ++
        "Required options:\n".toList ++
        ((m.mArgs.filter (fun arg => !arg.mOptional)).map usage_line).flatten ++
        "Optional options:\n".toList ++
        ((m.mArgs.filter (fun arg => arg.mOptional)).map usage_line).flatten := by
    simp only [usage, usage_entries_eq]
  have hreq : ∀ arg, arg ∈ m.mArgs.filter (fun arg => !arg.mOptional) ↔
      (arg ∈ m.mArgs ∧ arg.mOptional = false) := by
    intro arg; simp [List.mem_filter]
  have hopt : ∀ arg, arg ∈ m.mArgs.filter (fun arg => arg.mOptional) ↔
      (arg ∈ m.mArgs ∧ arg.mOptional = true) := by
    intro arg; simp [List.mem_filter]
  refine ⟨heq, ?_, hreq, hopt, ?_⟩
  · have h := List.filter_append_perm (fun arg : Argument => !arg.mOptional) m.mArgs
    simpa using h
  · intro a b ha hb hao hbo
    obtain ⟨s1, t1, h1⟩ := flatten_lines_split ((hreq a).mpr ⟨ha, hao⟩)
    obtain ⟨s2, t2, h2⟩ := flatten_lines_split ((hopt b).mpr ⟨hb, hbo⟩)
    refine ⟨s1, t1, s2, t2, ?_⟩
    rw [heq, h1, h2]
    simp [List.append_assoc]

/-- An instance of C11: `-x` declared optional and then `--flag` declared required
on a registry named `Prog`; the entry of `--flag` is the one under
`Required options:`, before the entries of `-h` and `-x`. -/
theorem usage_grouping_witness :
    usage (add (add (construct "Prog".toList "desc".toList) "-x".toList (placeholders 1) true []).2
        "--flag".toList (placeholders 1) false "a flag".toList).2 =
      ("Prog\n====\ndesc\n\nusage :  [Options]\nRequired options:\n * --flag\t\ta flag\n" ++
        "Optional options:\n * -h, --help\toutput the program's usage\n * -x\n").toList ∧
    ∃ x y z w,
      usage (add (add (construct "Prog".toList "desc".toList) "-x".toList (placeholders 1) true []).2
          "--flag".toList (placeholders 1) false "a flag".toList).2 =
        (usage_header (add (add (construct "Prog".toList "desc".toList) "-x".toList
            (placeholders 1) true []).2 "--flag".toList (placeholders 1) false "a flag".toList).2 ++
          ("usage : ".toList ++
            (add (add (construct "Prog".toList "desc".toList) "-x".toList
              (placeholders 1) true []).2 "--flag".toList (placeholders 1) false "a flag".toList).2.mBinName ++
            " [Options]\n".toList) ++
          "Required options:\n".toList ++ x) ++
        usage_line (Argument.mk "--flag".toList [] false "a flag".toList) ++
        (y ++ "Optional options:\n".toList ++ z) ++
        usage_line (Argument.mk "-x".toList [] true []) ++ w :=
  ⟨by decide,
    (usage_grouping (add (add (construct "Prog".toList "desc".toList) "-x".toList
      (placeholders 1) true []).2 "--flag".toList (placeholders 1) false "a flag".toList).2).2.2.2.2
      (Argument.mk "--flag".toList [] false "a flag".toList)
      (Argument.mk "-x".toList [] true []) (by decide) (by decide) rfl rfl⟩

theorem getD_set_slot (slot : Value) (n j : Nat) (t : Str) :
    (slot.set n t).getD j [] = if n = j ∧ n < slot.length then t else slot.getD j [] := by
  rw [List.getD_eq_getElem?_getD, List.getD_eq_getElem?_getD, List.getElem?_set]
  by_cases hnj : n = j
  · by_cases hlt : n < slot.length
    · subst hnj
      simp [hlt]
    · subst hnj
      simp [hlt, List.getElem?_eq_none (Nat.le_of_not_lt hlt)]
  · simp [hnj]

/-- The state after the first `n` iterations of the inner loop. -/
theorem parse_values_prefix (tokens : List Str) (i index : Nat) (m : ArgumentManager)
    (slot : Value) (hs : m.mValues[index]? = some slot) :
    ∀ n, n ≤ slot.length →
      ∃ slot', ((List.range n).foldl (parse_value tokens i index) m).mValues[index]? =
          some slot' ∧
        slot'.length = slot.length ∧
        (∀ j, j < n → slot'.getD j [] =
          if missing_value tokens i j then slot.getD j [] else tokens.getD (i + j + 1) []) ∧
        (∀ j, n ≤ j → slot'.getD j [] = slot.getD j []) ∧
        ((List.range n).foldl (parse_value tokens i index) m).mErrorMessages =
          m.mErrorMessages ++ ((List.range n).filter (missing_value tokens i)).map
            (fun _ => less_values (tokens.getD i [])) := by
  intro n
  induction n with
  | zero =>
    intro _
    exact ⟨slot, hs, rfl, fun j hj => absurd hj (Nat.not_lt_zero j), fun _ _ => rfl, by simp⟩
  | succ n ih =>
    intro hn
    obtain ⟨slot1, h1, hlen, hlow, hhigh, herr⟩ := ih (Nat.le_of_succ_le hn)
    rw [List.range_succ, List.foldl_append, List.foldl_cons, List.foldl_nil]
    generalize (List.range n).foldl (parse_value tokens i index) m = m1 at h1 herr
    by_cases hmiss : missing_value tokens i n = true
    · have hval : parse_value tokens i index m1 n =
          push_error m1 (less_values (tokens.getD i [])) := by
        unfold missing_value at hmiss
        simp only [parse_value, hmiss, if_true, less_values]
      rw [hval]
      refine ⟨slot1, h1, hlen, fun j hj => ?_, fun j hj => hhigh j (by omega), ?_⟩
      · by_cases hjn : j = n
        · subst hjn
          rw [hhigh j (Nat.le_refl _), if_pos hmiss]
        · exact hlow j (by omega)
      · simp [push_error, herr, List.filter_append, hmiss]
    · have hmiss' : missing_value tokens i n = false := by simpa using hmiss
      have hval : parse_value tokens i index m1 n =
          { m1 with
            mValues := (List.modify (fun slot => slot.set n (tokens.getD (i + n + 1) []))
              index m1.mValues) } := by
        unfold missing_value at hmiss'
        simp only [parse_value, hmiss', Bool.false_eq_true, if_false]
      rw [hval]
      refine ⟨slot1.set n (tokens.getD (i + n + 1) []), ?_, by simp [hlen],
        fun j hj => ?_, fun j hj => ?_, ?_⟩
      · simp only [List.getElem?_modify, h1]
        simp
      · rw [getD_set_slot]
        by_cases hjn : j = n
        · subst hjn
          have : j < slot1.length := by omega
          simp [this, hmiss']
        · have : ¬ (n = j ∧ n < slot1.length) := fun h => hjn h.1.symm
          rw [if_neg this]
          exact hlow j (by omega)
      · rw [getD_set_slot]
        have : ¬ (n = j ∧ n < slot1.length) := fun h => by omega
        rw [if_neg this]
        exact hhigh j (by omega)
      · simp [herr, List.filter_append, hmiss']

/-- C14: the matched-option step of `parse`. On a well-formed registry, when the
token at cursor `i` is a registered name whose slot has length `k`, the iteration
returns; for each `j < k`, with `current = i + j + 1`: if `current` is past the end
of the tokens or `tokens[current]` is name-shaped, position `j` of the slot is
unchanged and one diagnostic `tokens[i] has less values than expected` is appended
for it, otherwise position `j` becomes `tokens[current]`; the slot keeps its length,
no other slot is modified, and the next token examined as an option name is the one
at `i + k + 1`. -/
theorem matched_option_step (m : ArgumentManager) (hwf : WF m) (tokens : List Str)
    (i index : Nat) (slot : Value) (hf : find m.mIndices (tokens.getD i []) = some index)
    (hs : m.mValues[index]? = some slot) :
    ∃ m' slot', parse_step tokens i m = some (i + slot.length + 1, m') ∧
      m'.mValues[index]? = some slot' ∧ slot'.length = slot.length ∧
      (∀ j, j < slot.length → slot'.getD j [] =
        if missing_value tokens i j then slot.getD j [] else tokens.getD (i + j + 1) []) ∧
      (∀ id, id ≠ index → m'.mValues[id]? = m.mValues[id]?) ∧
      m'.mErrorMessages = m.mErrorMessages ++
        ((List.range slot.length).filter (missing_value tokens i)).map
          (fun _ => less_values (tokens.getD i [])) ∧
      m'.mIndices = m.mIndices ∧ m'.mArgs = m.mArgs ∧
      (∀ fuel, i < tokens.length →
        parse_loop (fuel + 1) tokens i m = parse_loop fuel tokens (i + slot.length + 1) m' ∧
        cursors (fuel + 1) tokens i m = i :: cursors fuel tokens (i + slot.length + 1) m') := by
  have hname := (wf_find_lt hwf hf).2
  have hstep : parse_step tokens i m =
      some (i + slot.length + 1, parse_values tokens i index slot.length m) := by
    simp only [parse_step, hname, hf, hs, Bool.not_true, Bool.false_eq_true, if_false]
    rfl
  obtain ⟨slot', h1, hlen, hlow, _, herr⟩ :=
    parse_values_prefix tokens i index m slot hs slot.length (Nat.le_refl _)
  have hst := foldl_parse_value_stable tokens i index (List.range slot.length) m
  refine ⟨parse_values tokens i index slot.length m, slot', hstep, h1, hlen, hlow,
    fun id hid => foldl_parse_value_other tokens i index id (Ne.symm hid) _ m, herr,
    hst.indices, hst.args, fun fuel hi => ⟨?_, ?_⟩⟩
  · rw [parse_loop, if_pos hi, hstep]
  · rw [cursors, if_pos hi, hstep]

/-- The witness of C14: `--pair` declared with two values on a fresh registry and the
tokens `prog --pair 7`, examined at cursor 1: position 0 receives `7`, position 1 lies
past the end. -/
theorem matched_option_step_witness :
    WF (add (construct [] []) "--pair".toList (placeholders 2) false []).2 ∧
    find (add (construct [] []) "--pair".toList (placeholders 2) false []).2.mIndices
      ((["prog".toList, "--pair".toList, "7".toList] : List Str).getD 1 []) = some 1 ∧
    (add (construct [] []) "--pair".toList (placeholders 2) false []).2.mValues[1]? =
      some ["0".toList, "0".toList] ∧
    ∃ m' slot', parse_step ["prog".toList, "--pair".toList, "7".toList] 1
        (add (construct [] []) "--pair".toList (placeholders 2) false []).2 =
        some (1 + (["0".toList, "0".toList] : Value).length + 1, m') ∧
      m'.mValues[1]? = some slot' ∧
      slot'.length = (["0".toList, "0".toList] : Value).length ∧
      slot'.getD 0 [] = "7".toList ∧ slot'.getD 1 [] = "0".toList ∧
      m'.mErrorMessages = (add (construct [] []) "--pair".toList (placeholders 2) false []).2.mErrorMessages
        ++ [less_values "--pair".toList] := by
  obtain ⟨m', slot', h1, h2, h3, h4, _, h6, _⟩ :=
    matched_option_step (add (construct [] []) "--pair".toList (placeholders 2) false []).2 (by decide)
      ["prog".toList, "--pair".toList, "7".toList] 1 1 ["0".toList, "0".toList]
      (by decide) (by decide)
  refine ⟨by decide, by decide, by decide, m', slot', h1, h2, h3, ?_, ?_, ?_⟩
  · rw [h4 0 (by decide)]; decide
  · rw [h4 1 (by decide)]; decide
  · rw [h6]; decide

/-! ## Parsing: the diagnostics do not steer the loop, and a skipped token shifts it -/

theorem parse_value_errors (tokens : List Str) (i index : Nat) (m : ArgumentManager) (j : Nat) :
    ∃ recorded, (parse_value tokens i index m j).mErrorMessages = m.mErrorMessages ++ recorded ∧
      ∀ E, parse_value tokens i index (with_errors m E) j =
        with_errors (parse_value tokens i index m j) (E ++ recorded) := by
  by_cases hmiss : (decide (tokens.length ≤ i + j + 1) ||
      is_valid_name (tokens.getD (i + j + 1) [])) = true
  · refine ⟨[tokens.getD i [] ++ " has less values than expected".toList], ?_, fun E => ?_⟩
    · simp only [parse_value, hmiss, if_true, push_error]
    · simp only [parse_value, hmiss, if_true, push_error, with_errors]
  · have hmiss' : (decide (tokens.length ≤ i + j + 1) ||
        is_valid_name (tokens.getD (i + j + 1) [])) = false := by simpa using hmiss
    refine ⟨[], ?_, fun E => ?_⟩
    · simp only [parse_value, hmiss', Bool.false_eq_true, if_false, List.append_nil]
    · simp only [parse_value, hmiss', Bool.false_eq_true, if_false, with_errors,
        List.append_nil]

theorem foldl_parse_value_errors (tokens : List Str) (i index : Nat) (js : List Nat) :
    ∀ m : ArgumentManager,
      ∃ recorded, (js.foldl (parse_value tokens i index) m).mErrorMessages =
          m.mErrorMessages ++ recorded ∧
        ∀ E, js.foldl (parse_value tokens i index) (with_errors m E) =
          with_errors (js.foldl (parse_value tokens i index) m) (E ++ recorded) := by
  induction js with
  | nil =>
    intro m
    exact ⟨[], by simp, fun E => by simp [with_errors]⟩
  | cons j rest ih =>
    intro m
    obtain ⟨r1, h1, g1⟩ := parse_value_errors tokens i index m j
    obtain ⟨r2, h2, g2⟩ := ih (parse_value tokens i index m j)
    refine ⟨r1 ++ r2, ?_, fun E => ?_⟩
    · rw [List.foldl_cons, h2, h1, List.append_assoc]
    · rw [List.foldl_cons, List.foldl_cons, g1 E]
      have := g2 (E ++ r1)
      rw [List.append_assoc] at this
      exact this

theorem parse_step_errors {tokens : List Str} {i : Nat} {m : ArgumentManager} {i' : Nat}
    {m1 : ArgumentManager} (h : parse_step tokens i m = some (i', m1)) :
    ∃ recorded, m1.mErrorMessages = m.mErrorMessages ++ recorded ∧
      ∀ E, parse_step tokens i (with_errors m E) =
        some (i', with_errors m1 (E ++ recorded)) := by
  unfold parse_step at h
  by_cases hv : is_valid_name (tokens.getD i []) = true
  · simp only [hv, Bool.not_true, Bool.false_eq_true, if_false] at h
    cases hf : find m.mIndices (tokens.getD i []) with
    | none =>
      simp only [hf, Option.some.injEq, Prod.mk.injEq] at h
      obtain ⟨h1, h2⟩ := h
      subst h1 h2
      refine ⟨[tokens.getD i [] ++ " is not a known option".toList], rfl, fun E => ?_⟩
      have hf' : find (with_errors m E).mIndices (tokens.getD i []) = none := hf
      simp only [parse_step, hv, Bool.not_true, Bool.false_eq_true, if_false, hf']
      rfl
    | some index =>
      simp only [hf] at h
      cases hs : m.mValues[index]? with
      | none => simp only [hs] at h; cases h
      | some slot =>
        simp only [hs, Option.some.injEq, Prod.mk.injEq] at h
        obtain ⟨h1, h2⟩ := h
        subst h1 h2
        obtain ⟨recorded, hr, hg⟩ :=
          foldl_parse_value_errors tokens i index (List.range slot.length) m
        refine ⟨recorded, hr, fun E => ?_⟩
        have hf' : find (with_errors m E).mIndices (tokens.getD i []) = some index := hf
        have hs' : (with_errors m E).mValues[index]? = some slot := hs
        simp only [parse_step, hv, Bool.not_true, Bool.false_eq_true, if_false, hf', hs']
        rw [parse_values, hg E]
        rfl
  · have hv' : is_valid_name (tokens.getD i []) = false := by simpa using hv
    simp only [hv', Bool.not_false, if_true, Option.some.injEq, Prod.mk.injEq] at h
    obtain ⟨h1, h2⟩ := h
    subst h1 h2
    refine ⟨[tokens.getD i [] ++ " is not a valid option".toList], rfl, fun E => ?_⟩
    simp only [parse_step, hv', Bool.not_false, if_true]
    rfl

theorem parse_loop_errors (tokens : List Str) :
    ∀ (fuel i : Nat) (m m1 : ArgumentManager), parse_loop fuel tokens i m = some m1 →
      ∃ recorded, m1.mErrorMessages = m.mErrorMessages ++ recorded ∧
        ∀ E, parse_loop fuel tokens i (with_errors m E) =
          some (with_errors m1 (E ++ recorded)) := by
  intro fuel
  induction fuel with
  | zero => intro i m m1 h; simp [parse_loop] at h
  | succ fuel ih =>
    intro i m m1 h
    unfold parse_loop at h
    by_cases hi : i < tokens.length
    · rw [if_pos hi] at h
      cases hstep : parse_step tokens i m with
      | none => rw [hstep] at h; cases h
      | some r =>
        obtain ⟨i', m'⟩ := r
        rw [hstep] at h
        simp only at h
        obtain ⟨r1, h1, g1⟩ := parse_step_errors hstep
        obtain ⟨r2, h2, g2⟩ := ih i' m' m1 h
        refine ⟨r1 ++ r2, by rw [h2, h1, List.append_assoc], fun E => ?_⟩
        rw [parse_loop, if_pos hi, g1 E]
        simp only
        have := g2 (E ++ r1)
        rw [List.append_assoc] at this
        exact this
    · rw [if_neg hi] at h
      simp only [Option.some.injEq] at h
      subst h
      refine ⟨[], by simp, fun E => ?_⟩
      rw [parse_loop, if_neg hi, List.append_nil]

theorem parse_value_shift (x y : Str) (rest : List Str) (i index : Nat) :
    parse_value (x :: y :: rest) (i + 2) index = parse_value (x :: rest) (i + 1) index := by
  funext m j
  have e1 : i + 2 + j + 1 = (i + j + 1) + 2 := by omega
  have e2 : i + 1 + j + 1 = (i + j + 1) + 1 := by omega
  simp only [parse_value, e1, e2, List.getD_cons_succ, List.length_cons,
    Nat.add_le_add_iff_right]

theorem parse_step_shift (x y : Str) (rest : List Str) (i : Nat) (m : ArgumentManager) :
    parse_step (x :: y :: rest) (i + 2) m =
      (parse_step (x :: rest) (i + 1) m).map (fun r => (r.1 + 1, r.2)) := by
  simp only [parse_step, parse_values, parse_value_shift, List.getD_cons_succ]
  split
  · rfl
  · split
    · rfl
    · split
      · rfl
      · simp only [Option.map_some', Option.some.injEq, Prod.mk.injEq, and_true]
        omega

theorem parse_loop_shift (x y : Str) (rest : List Str) :
    ∀ (fuel i : Nat) (m : ArgumentManager),
      parse_loop fuel (x :: y :: rest) (i + 2) m = parse_loop fuel (x :: rest) (i + 1) m := by
  intro fuel
  induction fuel with
  | zero => intro i m; rfl
  | succ fuel ih =>
    intro i m
    rw [parse_loop, parse_loop, parse_step_shift]
    by_cases hi : i + 1 < (x :: rest).length
    · have hi' : i + 2 < (x :: y :: rest).length := by
        simp only [List.length_cons] at hi ⊢; omega
      rw [if_pos hi, if_pos hi']
      cases hstep : parse_step (x :: rest) (i + 1) m with
      | none => rfl
      | some r =>
        obtain ⟨i', m'⟩ := r
        have hlt := (parse_step_stable hstep).1
        obtain ⟨k, rfl⟩ : ∃ k, i' = k + 1 := ⟨i' - 1, by omega⟩
        simp only [Option.map_some']
        exact ih k m'
    · have hi' : ¬ i + 2 < (x :: y :: rest).length := by
        simp only [List.length_cons] at hi ⊢; omega
      rw [if_neg hi, if_neg hi']

/-- C13: invalid-name skip. On every well-formed registry, for every token `t` that is
not name-shaped, or is name-shaped and not registered, and every list `rest`, `parse`
of `[prog, t] ++ rest` records exactly one diagnostic for `t` (`t is not a valid
option`, respectively `t is not a known option`), changes no slot because of `t`, and
processes `rest` as `parse` of `[prog] ++ rest` does: the slots and every other member
are those left by `parse` of `[prog] ++ rest`, and the diagnostics are the previous
ones, the one for `t`, then those recorded by `parse` of `[prog] ++ rest`. -/
theorem invalid_name_skipped (m : ArgumentManager) (hwf : WF m) (prog t : Str)
    (rest : List Str) (ht : is_valid_name t = false ∨ find m.mIndices t = none) :
    ∃ m1 recorded,
      parse m (prog :: rest) = some (m.mErrorMessages.length + recorded.length, m1) ∧
      m1.mErrorMessages = m.mErrorMessages ++ recorded ∧
      parse m (prog :: t :: rest) =
        some (m.mErrorMessages.length + 1 + recorded.length,
          with_errors m1 (m.mErrorMessages ++ [skipped t] ++ recorded)) := by
  obtain ⟨m1, hparse, _, hloop⟩ := parse_total m hwf prog rest
  obtain ⟨recorded, hrec, hgen⟩ := parse_loop_errors _ _ _ _ _ hloop
  simp only at hrec
  refine ⟨m1, recorded, ?_, hrec, ?_⟩
  · rw [hparse, hrec, List.length_append]
  · have hstep : parse_step (prog :: t :: rest) 1 { m with mBinName := bin_name prog } =
        some (2, with_errors { m with mBinName := bin_name prog }
          (m.mErrorMessages ++ [skipped t])) := by
      by_cases hv : is_valid_name t = true
      · have hfind : find m.mIndices t = none := by
          rcases ht with h | h
          · rw [hv] at h; cases h
          · exact h
        simp only [parse_step, List.getD_cons_succ, List.getD_cons_zero, hv, hfind,
          Bool.not_true, Bool.false_eq_true, if_false, skipped, if_true]
        rfl
      · have hv' : is_valid_name t = false := by simpa using hv
        simp only [parse_step, List.getD_cons_succ, List.getD_cons_zero, hv',
          Bool.not_false, if_true, skipped, Bool.false_eq_true, if_false]
        rfl
    have hshift := parse_loop_shift prog t rest (prog :: rest).length 0
      (with_errors { m with mBinName := bin_name prog } (m.mErrorMessages ++ [skipped t]))
    have hrun := hgen (m.mErrorMessages ++ [skipped t])
    simp only [parse, List.length_cons] at hshift hrun ⊢
    rw [parse_loop, if_pos (by simp), hstep]
    simp only
    rw [hshift, hrun]
    simp [with_errors, List.length_append]
    omega

/-- The witness of C13: `--known` declared with arity 0, treated as 1, on a fresh
registry, and the tokens `prog 123 --known`: one diagnostic for `123`, then `--known`
is matched (and lacks its value). -/
theorem invalid_name_skipped_witness :
    WF (add (construct [] []) "--known".toList (placeholders 0) false []).2 ∧
    (is_valid_name "123".toList = false ∨
      find (add (construct [] []) "--known".toList (placeholders 0) false []).2.mIndices
        "123".toList = none) ∧
    (parse (add (construct [] []) "--known".toList (placeholders 0) false []).2
      ["prog".toList, "123".toList, "--known".toList]).map
      (fun r => (r.1, r.2.mErrorMessages, r.2.mValues)) =
      some (2, ["123 is not a valid option".toList,
        "--known has less values than expected".toList], [["0".toList], ["0".toList]]) ∧
    parse_cursors (add (construct [] []) "--known".toList (placeholders 0) false []).2
      ["prog".toList, "123".toList, "--known".toList] = [1, 2] ∧
    ∃ m1 recorded,
      parse (add (construct [] []) "--known".toList (placeholders 0) false []).2
          ["prog".toList, "--known".toList] =
        some ((add (construct [] []) "--known".toList (placeholders 0) false []).2.mErrorMessages.length
          + recorded.length, m1) ∧
      m1.mErrorMessages =
        (add (construct [] []) "--known".toList (placeholders 0) false []).2.mErrorMessages ++ recorded ∧
      parse (add (construct [] []) "--known".toList (placeholders 0) false []).2
          ["prog".toList, "123".toList, "--known".toList] =
        some ((add (construct [] []) "--known".toList (placeholders 0) false []).2.mErrorMessages.length
            + 1 + recorded.length,
          with_errors m1
            ((add (construct [] []) "--known".toList (placeholders 0) false []).2.mErrorMessages ++
              [skipped "123".toList] ++ recorded)) :=
  ⟨by decide, by decide, by decide, by decide,
    invalid_name_skipped (add (construct [] []) "--known".toList (placeholders 0) false []).2 (by decide)
      "prog".toList "123".toList ["--known".toList] (by decide)⟩

end ArgumentManager
